import Mathlib

/-!
Verification development for the rule-driven file organizer
(`src/main.ts` of obsidian-file-move-workflow-manager).

The vault is modelled as a flat list of entries, each carrying its full
path (as the list of slash-separated components) and a folder/file flag.
The host file-tree primitives (`getAbstractFileByPath`, `createFolder`,
`rename`) are external collaborators of the core; they are modelled from
the spec's external-interface section (resolve / createDirectory / rename,
each "success-or-error").  The core functions `executeMoveRule`,
`processFolder` (here `walk`/`walkChildren`) and `moveFile` are translated
from `src/main.ts`.

Concurrency is modelled by recording, next to the list of issued moves,
the pairs of moves whose issuance in the source necessarily waits for an
earlier move's completion (the `await this.processFolder(child, ...)` on
line 108 completes every move of that subtree before the loop continues),
and by applying move completions in issuance order (the source awaits all
outcomes with `Promise.all`, completion order being arbitrary; collisions
among the modelled runs pick the issuance order).
-/

namespace FileMover

/-- A vault entry: an abstract file-tree node (`TAbstractFile`), identified
by its full path — modelled as the list of slash-separated components —
and a flag telling whether it is a folder (`TFolder`) or a leaf file. -/
structure Entry where
  path : List String
  isDir : Bool
deriving DecidableEq, Repr

/-- A user-authored move rule, translated from the `MoveRule` interface of
`src/main.ts` (lines 3-10); the two path fields are modelled as component
lists of the slash-separated path strings. -/
structure MoveRule where
  id : String
  name : String
  sourcePath : List String
  filePattern : String
  targetPath : List String
  enabled : Bool
deriving DecidableEq, Repr

/-- A move request: the file handle captured at issuance time (its current
path) together with the destination path `targetPath ++ [baseName]`,
mirroring `${targetPath}/${child.name}` on line 112 of `src/main.ts`. -/
structure MoveReq where
  src : List String
  dst : List String
deriving DecidableEq, Repr

/-- User-visible reports of one invocation: the four validation notices of
`executeMoveRule` and the per-file outcome reports of `moveFile` (the
success report corresponds to the unconditional `console.log` on line 130
plus the flag-gated `Notice` on line 128; the failure report to lines
132-133). -/
inductive Notice where
  | ruleDisabled (name : String)
  | sourceNotFound (p : List String)
  | targetCreateFailed (p : List String)
  | invalidPattern (pat : String)
  | movedFile (src dst : List String)
  | moveFailed (src : List String)
deriving DecidableEq, Repr

/-- Modelled from the spec: host primitive `resolve(path)` (spec section 6,
`getAbstractFileByPath` in the source) — look up a path, returning the
entry or an absent indicator. -/
def resolve (v : List Entry) (p : List String) : Option Entry :=
  v.find? (fun e => decide (e.path = p))

/-- Does `p` name a folder of the vault? (`[]` is the vault root, which
always exists as a folder in the host.) -/
def dirAt (v : List Entry) (p : List String) : Bool :=
  match resolve v p with
  | some e => e.isDir
  | none => false

/-- Modelled from the spec: host primitive `createDirectory(path)` (spec
section 6, `vault.createFolder` in the source), "success-or-error": the
new folder is created when the path is unoccupied and its parent is an
existing folder (or the root). -/
def createFolder (v : List Entry) (p : List String) : Option (List Entry) :=
  if p = [] then none
  else if (resolve v p).isSome then none
  else if p.dropLast = [] ∨ dirAt v p.dropLast = true then some (v ++ [⟨p, true⟩])
  else none

/-- Target-folder ensure step of `executeMoveRule` (lines 81-89 of
`src/main.ts`): if the target path resolves to any existing entry it is
left alone, otherwise folder creation is attempted. -/
def ensureTarget (v : List Entry) (p : List String) : Option (List Entry) :=
  match resolve v p with
  | some _ => some v
  | none => createFolder v p

/-- Modelled from the spec: host primitive `rename(fileHandle, newPath)`
(spec section 6, `vault.rename` in the source), "success-or-error": an
atomic move of one entry to a new path.  It errors when the handle is
stale, the destination is already occupied (name collision), or the
destination's parent folder is missing. -/
def renameOp (v : List Entry) (src dst : List String) : Except String (List Entry) :=
  match resolve v src with
  | none => .error "source entry missing"
  | some e =>
    if (resolve v dst).isSome then .error "destination already exists"
    else if dst.dropLast = [] ∨ dirAt v dst.dropLast = true then
      .ok ((v.filter (fun e2 => decide (e2.path ≠ src))) ++ [⟨dst, e.isDir⟩])
    else .error "destination folder missing"

/-- `moveFile` of `src/main.ts` (lines 124-135): one rename, with every
rename error caught and reported individually for that file; a failed
rename leaves the tree untouched. -/
def moveFile (v : List Entry) (m : MoveReq) : List Entry × Notice :=
  match renameOp v m.src m.dst with
  | .ok v' => (v', .movedFile m.src m.dst)
  | .error _ => (v, .moveFailed m.src)

/-- The move-executor phase: every collected move is applied and produces
exactly one outcome report (`await Promise.all(movePromises)` on line 120
resolves every outcome; completion order, arbitrary in the source, is
modelled as issuance order). -/
def applyMoves : List Entry → List MoveReq → List Entry × List Notice
  | v, [] => (v, [])
  | v, m :: ms =>
    let r := moveFile v m
    let rest := applyMoves r.1 ms
    (rest.1, r.2 :: rest.2)

/-- Result of the tree-walk phase: the file paths tested against the
pattern (in visiting order), the issued moves (in issuance order), and the
pairs `(m1, m2)` such that the issuance of `m2` necessarily waits for the
completion of `m1` — which happens in the source exactly when `m1` belongs
to an earlier sibling subfolder whose `await this.processFolder(child,...)`
(line 108) completed before `m2` was issued. -/
structure WalkOut where
  tested : List (List String)
  moves : List MoveReq
  blocked : List (MoveReq × MoveReq)
deriving DecidableEq, Repr

/-- All pairs `(c, m)` with `c` drawn from `cs` and `m` from `ms`. -/
def pairsOf (cs ms : List MoveReq) : List (MoveReq × MoveReq) :=
  cs.foldr (fun c acc => ms.map (fun m => (c, m)) ++ acc) []

/-- The direct children of the folder at `p`, in vault order (the host's
`folder.children`). -/
def childrenOf (v : List Entry) (p : List String) : List Entry :=
  v.filter (fun e => decide (e.path ≠ [] ∧ e.path.dropLast = p))

/-- The child loop of `processFolder` (lines 105-117 of `src/main.ts`):
`rec` is the recursive call for a subfolder (whose result is awaited in
full before the loop continues, hence its moves join the `completed` set
blocking all later issuances), a matching file child issues a move, a
non-matching file child is only tested. -/
def walkChildren (tgt : List String) (pat : String → Bool)
    (rec : List String → WalkOut) : List MoveReq → List Entry → WalkOut
  | _, [] => ⟨[], [], []⟩
  | completed, e :: es =>
    if e.isDir then
      let sub := rec e.path
      let rest := walkChildren tgt pat rec (completed ++ sub.moves) es
      ⟨sub.tested ++ rest.tested, sub.moves ++ rest.moves,
       sub.blocked ++ pairsOf completed sub.moves ++ rest.blocked⟩
    else
      let nm := e.path.getLastD ""
      if pat nm then
        let m : MoveReq := ⟨e.path, tgt ++ [nm]⟩
        let rest := walkChildren tgt pat rec completed es
        ⟨e.path :: rest.tested, m :: rest.moves, pairsOf completed [m] ++ rest.blocked⟩
      else
        let rest := walkChildren tgt pat rec completed es
        ⟨e.path :: rest.tested, rest.moves, rest.blocked⟩

/-- `processFolder` of `src/main.ts` (lines 101-121), instrumented: walks
the folder at `p`, recursing into every subfolder and testing every file
child's base name against the pattern.  The `fuel` argument bounds the
recursion depth for totality; it is immaterial once it exceeds the vault's
maximal path length (the host tree is finite and acyclic, spec sec. 4.2). -/
def walk (v : List Entry) (pat : String → Bool) (tgt : List String) :
    Nat → List String → WalkOut
  | 0, _ => ⟨[], [], []⟩
  | fuel + 1, p =>
    walkChildren tgt pat (fun q => walk v pat tgt fuel q) [] (childrenOf v p)

/-- Length of the longest entry path of the vault. -/
def maxLen (v : List Entry) : Nat :=
  v.foldr (fun e m => max e.path.length m) 0

/-- The walk a rule invocation performs, starting from the rule's source
path with always-sufficient fuel. -/
def ruleWalk (v1 : List Entry) (pat : String → Bool) (rule : MoveRule) : WalkOut :=
  walk v1 pat rule.targetPath (maxLen v1 + 1) rule.sourcePath

/-- Full record of one rule invocation: the vault afterwards, the notices
and per-file reports, and the instrumentation of the walk (issued moves,
forced completion-before-issuance pairs, tested file paths). -/
structure ExecState where
  vault : List Entry
  notices : List Notice
  issued : List MoveReq
  blocked : List (MoveReq × MoveReq)
  tested : List (List String)
deriving DecidableEq, Repr

/-- Pattern-compile-then-walk-then-move phase of `executeMoveRule` (lines
91-98 of `src/main.ts`): a pattern that fails to compile aborts with the
invalid-pattern notice before any walk or move. -/
def matchAndMove (compile : String → Option (String → Bool))
    (v1 : List Entry) (rule : MoveRule) : ExecState :=
  match compile rule.filePattern with
  | none => ⟨v1, [.invalidPattern rule.filePattern], [], [], []⟩
  | some pat =>
    let w := ruleWalk v1 pat rule
    let r := applyMoves v1 w.moves
    ⟨r.1, r.2, w.moves, w.blocked, w.tested⟩

/-- `executeMoveRule` of `src/main.ts` (lines 68-99), the `runRule`
operation of the spec: disabled-check, source-folder check, target-folder
ensure, then pattern compilation, walk and concurrent moves.  It is
parametric in the host regex engine `compile` (the source's
`new RegExp(...)` / `RegExp.test`). -/
def executeMoveRule (compile : String → Option (String → Bool))
    (v : List Entry) (rule : MoveRule) : ExecState :=
  if rule.enabled = false then ⟨v, [.ruleDisabled rule.name], [], [], []⟩
  else
    match resolve v rule.sourcePath with
    | none => ⟨v, [.sourceNotFound rule.sourcePath], [], [], []⟩
    | some e =>
      if e.isDir = false then ⟨v, [.sourceNotFound rule.sourcePath], [], [], []⟩
      else
        match ensureTarget v rule.targetPath with
        | none => ⟨v, [.targetCreateFailed rule.targetPath], [], [], []⟩
        | some v1 => matchAndMove compile v1 rule

/-- Pattern compilation with an explicit error channel, for stating that
`executeMoveRule` propagates no error. -/
def compileE (compile : String → Option (String → Bool)) (s : String) :
    Except String (String → Bool) :=
  match compile s with
  | some m => .ok m
  | none => .error "SyntaxError"

/-- The `try ... catch` of lines 92-98 of `src/main.ts` made explicit: the
guarded phase either returns a state or raises, and any raise is converted
to the invalid-pattern notice. -/
def matchAndMoveE (compile : String → Option (String → Bool))
    (v1 : List Entry) (rule : MoveRule) : Except String ExecState :=
  let attempt : Except String ExecState :=
    match compileE compile rule.filePattern with
    | .error msg => .error msg
    | .ok pat =>
      let w := ruleWalk v1 pat rule
      let r := applyMoves v1 w.moves
      .ok ⟨r.1, r.2, w.moves, w.blocked, w.tested⟩
  match attempt with
  | .error _ => .ok ⟨v1, [.invalidPattern rule.filePattern], [], [], []⟩
  | .ok st => .ok st

/-- `executeMoveRule` with the explicit error channel of `matchAndMoveE`;
the validation notices are plain returns in the source (no throw). -/
def executeMoveRuleE (compile : String → Option (String → Bool))
    (v : List Entry) (rule : MoveRule) : Except String ExecState :=
  if rule.enabled = false then .ok ⟨v, [.ruleDisabled rule.name], [], [], []⟩
  else
    match resolve v rule.sourcePath with
    | none => .ok ⟨v, [.sourceNotFound rule.sourcePath], [], [], []⟩
    | some e =>
      if e.isDir = false then .ok ⟨v, [.sourceNotFound rule.sourcePath], [], [], []⟩
      else
        match ensureTarget v rule.targetPath with
        | none => .ok ⟨v, [.targetCreateFailed rule.targetPath], [], [], []⟩
        | some v1 => matchAndMoveE compile v1 rule

/-! ### Well-formed vaults and path relations -/

/-- Well-formed vault: entry paths are distinct and nonempty, and the
parent of every entry (when not the root) is itself a folder entry of the
vault. -/
def WF (v : List Entry) : Prop :=
  (v.map Entry.path).Nodup ∧
  ∀ e ∈ v, e.path ≠ [] ∧
    (e.path.dropLast ≠ [] → ∃ d ∈ v, d.path = e.path.dropLast ∧ d.isDir = true)

instance : DecidablePred WF := fun v => by
  unfold WF; infer_instance

/-- `q` lies strictly below the folder path `p` (at any depth). -/
def strictUnder (p q : List String) : Prop :=
  q.take p.length = p ∧ p.length < q.length

instance (p q : List String) : Decidable (strictUnder p q) := by
  unfold strictUnder; infer_instance

/-! ### A concrete host regex engine

The source delegates matching to the host JavaScript `RegExp` engine
(`new RegExp(rule.filePattern)` and `regex.test(name)`, unanchored search).
The general theorems below are parametric in the engine; for concrete runs
we model the fragment of the JavaScript syntax the spec exercises:
literal characters, `\`-escapes, `.`, `[...]` character classes (with `^`
negation), and `^` / `$` anchors at the pattern's ends.  An unbalanced
`[` fails to compile, as in the host. -/

/-- One compiled regex token. -/
inductive RTok where
  | lit (c : Char)
  | dot
  | cls (neg : Bool) (cs : List Char)
deriving DecidableEq, Repr

/-- Token tokenizer for the modelled regex fragment; the fuel is one more
than the input length, so it never runs out on the initial call.
Unsupported constructs and an unbalanced `[` fail the compilation. -/
def parseToks : Nat → List Char → Option (List RTok)
  | _, [] => some []
  | 0, _ :: _ => none
  | fuel + 1, cs =>
    match cs with
    | [] => some []
    | '\\' :: rest =>
      match rest with
      | [] => none
      | c :: rest2 => (parseToks fuel rest2).map (fun ts => RTok.lit c :: ts)
    | '[' :: rest =>
      match rest.findIdx? (fun c => c = ']') with
      | none => none
      | some i =>
        let inside := rest.take i
        let after := rest.drop (i + 1)
        match inside with
        | '^' :: cs2 => (parseToks fuel after).map (fun ts => RTok.cls true cs2 :: ts)
        | _ => (parseToks fuel after).map (fun ts => RTok.cls false inside :: ts)
    | '.' :: rest => (parseToks fuel rest).map (fun ts => RTok.dot :: ts)
    | c :: rest =>
      if c = '*' ∨ c = '+' ∨ c = '?' ∨ c = '(' ∨ c = ')' ∨ c = '|' ∨
         c = '$' ∨ c = '^' ∨ c = '\x7b' ∨ c = '\x7d' ∨ c = ']' then none
      else (parseToks fuel rest).map (fun ts => RTok.lit c :: ts)

/-- Does one token match one character? -/
def tokMatch : RTok → Char → Bool
  | .lit c, d => c == d
  | .dot, _ => true
  | .cls neg cs, d => if neg then !(cs.contains d) else cs.contains d

/-- Do the tokens match an initial segment of the input? -/
def matchHere : List RTok → List Char → Bool
  | [], _ => true
  | _ :: _, [] => false
  | t :: ts, c :: cs => tokMatch t c && matchHere ts cs

/-- Do the tokens match the whole input? -/
def matchExact (ts : List RTok) (cs : List Char) : Bool :=
  ts.length == cs.length && matchHere ts cs

/-- Does some suffix of the input start with a token match? -/
def anySuffixHere (ts : List RTok) : List Char → Bool
  | [] => matchHere ts []
  | c :: rest => matchHere ts (c :: rest) || anySuffixHere ts rest

/-- Unanchored `RegExp.test` semantics, specialised by the anchors. -/
def jsTest (aS aE : Bool) (ts : List RTok) (cs : List Char) : Bool :=
  match aS, aE with
  | true, true => matchExact ts cs
  | true, false => matchHere ts cs
  | false, true => matchExact ts (cs.drop (cs.length - ts.length))
  | false, false => anySuffixHere ts cs

/-- The modelled host regex engine: compile a pattern string into an
unanchored tester of base names, or fail on a syntax error. -/
def jsCompile (s : String) : Option (String → Bool) :=
  let cs := s.toList
  let p1 : Bool × List Char :=
    match cs with
    | '^' :: rest => (true, rest)
    | _ => (false, cs)
  let aS := p1.1
  let cs1 := p1.2
  let endAnchor : Bool :=
    cs1.getLast? == some '$' &&
      !(decide (2 ≤ cs1.length) && cs1[cs1.length - 2]? == some '\\')
  let cs2 := if endAnchor then cs1.dropLast else cs1
  match parseToks (cs2.length + 1) cs2 with
  | none => none
  | some ts => some (fun nm => jsTest aS endAnchor ts nm.toList)

/-! ### Concrete vaults and rules used by the closed runs below -/

/-- A vault with one matching file, one non-matching file and an existing
target folder. -/
def vPlain : List Entry :=
  [⟨["Inbox"], true⟩, ⟨["Inbox", "a.md"], false⟩, ⟨["Inbox", "b.txt"], false⟩, ⟨["T"], true⟩]

/-- Move the Markdown files of `Inbox` into `T`. -/
def rulePlain : MoveRule := ⟨"1", "plain", ["Inbox"], "\\.md$", ["T"], true⟩

/-- The disabled variant of `rulePlain`. -/
def ruleOff : MoveRule := ⟨"1", "plain", ["Inbox"], "\\.md$", ["T"], false⟩

/-- A vault whose `Inbox` entry is a file, not a folder. -/
def vSrcFile : List Entry := [⟨["Inbox"], false⟩, ⟨["T"], true⟩]

/-- A vault with two matching files of the same base name in different
subfolders. -/
def vDup : List Entry :=
  [⟨["Inbox"], true⟩, ⟨["Inbox", "A"], true⟩, ⟨["Inbox", "B"], true⟩,
   ⟨["Inbox", "A", "x.md"], false⟩, ⟨["Inbox", "B", "x.md"], false⟩, ⟨["T"], true⟩]

/-- Move every file whose name contains an `x` into `T`. -/
def ruleDup : MoveRule := ⟨"1", "dup", ["Inbox"], "x", ["T"], true⟩

/-- A vault without the target folder `T`. -/
def vNoTarget : List Entry := [⟨["Inbox"], true⟩, ⟨["Inbox", "a.md"], false⟩]

/-- A rule whose pattern `[` is a regex syntax error (unbalanced class)
and whose target folder is absent. -/
def ruleBracket : MoveRule := ⟨"1", "bracket", ["Inbox"], "[", ["T"], true⟩

/-- A vault where a matching file sits in a subfolder that precedes a
matching direct file child in vault order. -/
def vNest : List Entry :=
  [⟨["Inbox"], true⟩, ⟨["Inbox", "sub"], true⟩, ⟨["Inbox", "sub", "a.md"], false⟩,
   ⟨["Inbox", "b.md"], false⟩, ⟨["T"], true⟩]

/-- Move every file of `Inbox` into `T` (the empty pattern matches every
name). -/
def ruleNest : MoveRule := ⟨"1", "nest", ["Inbox"], "", ["T"], true⟩

/-- A vault where `T/b.md` already exists, so moving `Inbox/b.md` into `T`
collides while `a.md` and `c.md` move fine. -/
def vColl : List Entry :=
  [⟨["Inbox"], true⟩, ⟨["Inbox", "a.md"], false⟩, ⟨["Inbox", "b.md"], false⟩,
   ⟨["Inbox", "c.md"], false⟩, ⟨["T"], true⟩, ⟨["T", "b.md"], false⟩]

/-- Move the Markdown files of `Inbox` into `T` (collides on `b.md`). -/
def ruleColl : MoveRule := ⟨"1", "coll", ["Inbox"], "\\.md$", ["T"], true⟩

/-- The spec's own running example: the target folder lies inside the
source folder. -/
def vPdf : List Entry := [⟨["Inbox"], true⟩, ⟨["Inbox", "a.pdf"], false⟩]

/-- Move the PDF files of `Inbox` into `Inbox/PDFs`. -/
def rulePdf : MoveRule := ⟨"1", "pdf", ["Inbox"], "\\.pdf$", ["Inbox", "PDFs"], true⟩

/-- A vault whose target path `T` is occupied by a plain file. -/
def vTgtFile : List Entry := [⟨["Inbox"], true⟩, ⟨["Inbox", "a.md"], false⟩, ⟨["T"], false⟩]

/-- A rule whose target path names the plain file `T` of `vTgtFile`. -/
def ruleTgtFile : MoveRule := ⟨"1", "tgtfile", ["Inbox"], "\\.md$", ["T"], true⟩

/-- Is this report a per-file success report? -/
def Notice.isMoved : Notice → Bool
  | .movedFile _ _ => true
  | _ => false

/-- The matcher `jsCompile` produces for the pattern of `rulePlain`. -/
def patMd : String → Bool := (jsCompile "\\.md$").getD (fun _ => false)

/-- The matcher `jsCompile` produces for the empty pattern. -/
def patAll : String → Bool := (jsCompile "").getD (fun _ => false)

/-! ### Lemmas about the host-primitive models -/

theorem resolve_eq_some {v : List Entry} {p : List String} {e : Entry}
    (h : resolve v p = some e) : e ∈ v ∧ e.path = p := by
  refine ⟨List.mem_of_find?_eq_some h, ?_⟩
  have h2 := List.find?_some h
  simpa using h2

theorem resolve_eq_none {v : List Entry} {p : List String} :
    resolve v p = none ↔ ∀ e ∈ v, e.path ≠ p := by
  simp [resolve, List.find?_eq_none]

theorem resolve_of_mem {v : List Entry} {e : Entry}
    (hnd : (v.map Entry.path).Nodup) (he : e ∈ v) :
    resolve v e.path = some e := by
  induction v with
  | nil => cases he
  | cons a v ih =>
    rcases List.mem_cons.mp he with rfl | he2
    · simp [resolve, List.find?_cons]
    · have hne : a.path ≠ e.path := by
        intro hEq
        have : e.path ∈ v.map Entry.path := List.mem_map_of_mem Entry.path he2
        rw [List.map_cons, List.nodup_cons] at hnd
        exact hnd.1 (hEq ▸ this)
      have ih2 := ih (by rw [List.map_cons, List.nodup_cons] at hnd; exact hnd.2) he2
      simpa [resolve, List.find?_cons, hne] using ih2

theorem applyMoves_length (v : List Entry) (ms : List MoveReq) :
    (applyMoves v ms).2.length = ms.length := by
  induction ms generalizing v with
  | nil => rfl
  | cons m ms ih => simp [applyMoves, ih]

theorem applyMoves_append (v : List Entry) (l1 l2 : List MoveReq) :
    applyMoves v (l1 ++ l2) =
      ((applyMoves (applyMoves v l1).1 l2).1,
       (applyMoves v l1).2 ++ (applyMoves (applyMoves v l1).1 l2).2) := by
  induction l1 generalizing v with
  | nil => simp [applyMoves]
  | cons m l1 ih => simp [applyMoves, ih]

theorem moveFile_failed_eq {v : List Entry} {m : MoveReq} {s : List String}
    (h : (moveFile v m).2 = .moveFailed s) : (moveFile v m).1 = v := by
  unfold moveFile at *
  cases hr : renameOp v m.src m.dst <;> simp [hr] at h ⊢

theorem applyMoves_notices_shape (v : List Entry) (ms : List MoveReq) :
    ∀ n ∈ (applyMoves v ms).2,
      (∃ a b, n = .movedFile a b) ∨ ∃ a, n = .moveFailed a := by
  induction ms generalizing v with
  | nil => simp [applyMoves]
  | cons m ms ih =>
    intro n hn
    simp only [applyMoves, List.mem_cons] at hn
    rcases hn with rfl | hn
    · unfold moveFile
      cases renameOp v m.src m.dst with
      | ok v' => exact Or.inl ⟨m.src, m.dst, rfl⟩
      | error e => exact Or.inr ⟨m.src, rfl⟩
    · exact ih _ n hn

/-! ### Lemmas about the walk -/

theorem childrenOf_mem {v : List Entry} {p : List String} {e : Entry} :
    e ∈ childrenOf v p ↔ e ∈ v ∧ e.path ≠ [] ∧ e.path.dropLast = p := by
  simp [childrenOf, List.mem_filter]

theorem child_path_eq {e : Entry} {p : List String}
    (h1 : e.path ≠ []) (h2 : e.path.dropLast = p) :
    e.path = p ++ [e.path.getLast h1] := by
  conv_lhs => rw [← List.dropLast_append_getLast h1]
  rw [h2]

theorem child_length {e : Entry} {p : List String}
    (h1 : e.path ≠ []) (h2 : e.path.dropLast = p) :
    e.path.length = p.length + 1 := by
  rw [child_path_eq h1 h2]
  simp

theorem child_strictUnder {e : Entry} {p : List String}
    (h1 : e.path ≠ []) (h2 : e.path.dropLast = p) :
    strictUnder p e.path := by
  constructor
  · rw [child_path_eq h1 h2]
    exact List.take_left p _
  · rw [child_length h1 h2]; omega

theorem strictUnder_trans_child {p q r : List String}
    (h1 : q.take p.length = p) (h2 : strictUnder q r) : strictUnder p r := by
  obtain ⟨h2a, h2b⟩ := h2
  have hlen : p.length ≤ q.length := by
    have h3 := congrArg List.length h1
    simp at h3
    omega
  constructor
  · calc List.take p.length r
        = List.take p.length (List.take q.length r) := by
          rw [List.take_take, Nat.min_eq_left hlen]
      _ = p := by rw [h2a, h1]
  · omega

theorem walkChildren_nil (tgt : List String) (pat : String → Bool)
    (rec : List String → WalkOut) (completed : List MoveReq) :
    walkChildren tgt pat rec completed [] = ⟨[], [], []⟩ := rfl

theorem walkChildren_cons_dir (tgt : List String) (pat : String → Bool)
    (rec : List String → WalkOut) (completed : List MoveReq) (e : Entry)
    (es : List Entry) (hd : e.isDir = true) :
    walkChildren tgt pat rec completed (e :: es) =
      ⟨(rec e.path).tested ++
         (walkChildren tgt pat rec (completed ++ (rec e.path).moves) es).tested,
       (rec e.path).moves ++
         (walkChildren tgt pat rec (completed ++ (rec e.path).moves) es).moves,
       (rec e.path).blocked ++ pairsOf completed (rec e.path).moves ++
         (walkChildren tgt pat rec (completed ++ (rec e.path).moves) es).blocked⟩ := by
  simp [walkChildren, hd]

theorem walkChildren_cons_file_match (tgt : List String) (pat : String → Bool)
    (rec : List String → WalkOut) (completed : List MoveReq) (e : Entry)
    (es : List Entry) (hd : e.isDir = false)
    (hp : pat (e.path.getLastD "") = true) :
    walkChildren tgt pat rec completed (e :: es) =
      ⟨e.path :: (walkChildren tgt pat rec completed es).tested,
       (⟨e.path, tgt ++ [e.path.getLastD ""]⟩ : MoveReq) ::
         (walkChildren tgt pat rec completed es).moves,
       pairsOf completed [⟨e.path, tgt ++ [e.path.getLastD ""]⟩] ++
         (walkChildren tgt pat rec completed es).blocked⟩ := by
  have hp2 : pat (e.path.getLast?.getD "") = true := by
    rw [← List.getLastD_eq_getLast?]; exact hp
  simp [walkChildren, hd, hp2]

theorem walkChildren_cons_file_nomatch (tgt : List String) (pat : String → Bool)
    (rec : List String → WalkOut) (completed : List MoveReq) (e : Entry)
    (es : List Entry) (hd : e.isDir = false)
    (hp : pat (e.path.getLastD "") = false) :
    walkChildren tgt pat rec completed (e :: es) =
      ⟨e.path :: (walkChildren tgt pat rec completed es).tested,
       (walkChildren tgt pat rec completed es).moves,
       (walkChildren tgt pat rec completed es).blocked⟩ := by
  have hp2 : pat (e.path.getLast?.getD "") = false := by
    rw [← List.getLastD_eq_getLast?]; exact hp
  simp [walkChildren, hd, hp2]

theorem walkChildren_tested_mem (tgt : List String) (pat : String → Bool)
    (rec : List String → WalkOut) (completed : List MoveReq) (es : List Entry)
    (q : List String) :
    q ∈ (walkChildren tgt pat rec completed es).tested ↔
      ∃ e ∈ es, (e.isDir = true ∧ q ∈ (rec e.path).tested) ∨
                (e.isDir = false ∧ q = e.path) := by
  induction es generalizing completed with
  | nil => simp [walkChildren_nil]
  | cons e es ih =>
    cases hd : e.isDir with
    | true =>
      rw [walkChildren_cons_dir tgt pat rec completed e es hd]
      simp only [List.mem_append, ih, List.mem_cons]
      constructor
      · rintro (h | ⟨e2, he2, h⟩)
        · exact ⟨e, Or.inl rfl, Or.inl ⟨hd, h⟩⟩
        · exact ⟨e2, Or.inr he2, h⟩
      · rintro ⟨e2, he2 | he2, h⟩
        · subst he2
          rcases h with ⟨_, h⟩ | ⟨hf, _⟩
          · exact Or.inl h
          · rw [hd] at hf; cases hf
        · exact Or.inr ⟨e2, he2, h⟩
    | false =>
      cases hp : pat (e.path.getLastD "") with
      | true =>
        rw [walkChildren_cons_file_match tgt pat rec completed e es hd hp]
        simp only [List.mem_cons, ih]
        constructor
        · rintro (rfl | ⟨e2, he2, h⟩)
          · exact ⟨e, Or.inl rfl, Or.inr ⟨hd, rfl⟩⟩
          · exact ⟨e2, Or.inr he2, h⟩
        · rintro ⟨e2, he2 | he2, h⟩
          · subst he2
            rcases h with ⟨ht, _⟩ | ⟨_, h⟩
            · rw [hd] at ht; cases ht
            · exact Or.inl h
          · exact Or.inr ⟨e2, he2, h⟩
      | false =>
        rw [walkChildren_cons_file_nomatch tgt pat rec completed e es hd hp]
        simp only [List.mem_cons, ih]
        constructor
        · rintro (rfl | ⟨e2, he2, h⟩)
          · exact ⟨e, Or.inl rfl, Or.inr ⟨hd, rfl⟩⟩
          · exact ⟨e2, Or.inr he2, h⟩
        · rintro ⟨e2, he2 | he2, h⟩
          · subst he2
            rcases h with ⟨ht, _⟩ | ⟨_, h⟩
            · rw [hd] at ht; cases ht
            · exact Or.inl h
          · exact Or.inr ⟨e2, he2, h⟩

theorem walkChildren_moves_mem (tgt : List String) (pat : String → Bool)
    (rec : List String → WalkOut) (completed : List MoveReq) (es : List Entry)
    (m : MoveReq) :
    m ∈ (walkChildren tgt pat rec completed es).moves ↔
      ∃ e ∈ es, (e.isDir = true ∧ m ∈ (rec e.path).moves) ∨
                (e.isDir = false ∧ pat (e.path.getLastD "") = true ∧
                 m = ⟨e.path, tgt ++ [e.path.getLastD ""]⟩) := by
  induction es generalizing completed with
  | nil => simp [walkChildren_nil]
  | cons e es ih =>
    cases hd : e.isDir with
    | true =>
      rw [walkChildren_cons_dir tgt pat rec completed e es hd]
      simp only [List.mem_append, ih, List.mem_cons]
      constructor
      · rintro (h | ⟨e2, he2, h⟩)
        · exact ⟨e, Or.inl rfl, Or.inl ⟨hd, h⟩⟩
        · exact ⟨e2, Or.inr he2, h⟩
      · rintro ⟨e2, he2 | he2, h⟩
        · subst he2
          rcases h with ⟨_, h⟩ | ⟨hf, _⟩
          · exact Or.inl h
          · rw [hd] at hf; cases hf
        · exact Or.inr ⟨e2, he2, h⟩
    | false =>
      cases hp : pat (e.path.getLastD "") with
      | true =>
        rw [walkChildren_cons_file_match tgt pat rec completed e es hd hp]
        simp only [List.mem_cons, ih]
        constructor
        · rintro (rfl | ⟨e2, he2, h⟩)
          · exact ⟨e, Or.inl rfl, Or.inr ⟨hd, hp, rfl⟩⟩
          · exact ⟨e2, Or.inr he2, h⟩
        · rintro ⟨e2, he2 | he2, h⟩
          · subst he2
            rcases h with ⟨ht, _⟩ | ⟨_, _, h⟩
            · rw [hd] at ht; cases ht
            · exact Or.inl h
          · exact Or.inr ⟨e2, he2, h⟩
      | false =>
        rw [walkChildren_cons_file_nomatch tgt pat rec completed e es hd hp]
        simp only [ih]
        constructor
        · rintro ⟨e2, he2, h⟩
          exact ⟨e2, List.mem_cons_of_mem e he2, h⟩
        · rintro ⟨e2, he2, h⟩
          rcases List.mem_cons.mp he2 with rfl | he2
          · rcases h with ⟨ht, _⟩ | ⟨_, hp2, _⟩
            · rw [hd] at ht; cases ht
            · rw [hp2] at hp; cases hp
          · exact ⟨e2, he2, h⟩

theorem walkChildren_moves_src_sublist (tgt : List String) (pat : String → Bool)
    (rec : List String → WalkOut) (completed : List MoveReq) (es : List Entry)
    (hrec : ∀ q, List.Sublist ((rec q).moves.map MoveReq.src) (rec q).tested) :
    List.Sublist ((walkChildren tgt pat rec completed es).moves.map MoveReq.src)
      (walkChildren tgt pat rec completed es).tested := by
  induction es generalizing completed with
  | nil => simp [walkChildren_nil]
  | cons e es ih =>
    cases hd : e.isDir with
    | true =>
      rw [walkChildren_cons_dir tgt pat rec completed e es hd]
      simp only [List.map_append]
      exact List.Sublist.append (hrec e.path) (ih _)
    | false =>
      cases hp : pat (e.path.getLastD "") with
      | true =>
        rw [walkChildren_cons_file_match tgt pat rec completed e es hd hp]
        simp only [List.map_cons]
        exact List.Sublist.cons₂ _ (ih _)
      | false =>
        rw [walkChildren_cons_file_nomatch tgt pat rec completed e es hd hp]
        exact List.Sublist.cons _ (ih _)

theorem walk_succ (v : List Entry) (pat : String → Bool) (tgt : List String)
    (fuel : Nat) (p : List String) :
    walk v pat tgt (fuel + 1) p =
      walkChildren tgt pat (fun q => walk v pat tgt fuel q) [] (childrenOf v p) := rfl

theorem walk_zero (v : List Entry) (pat : String → Bool) (tgt : List String)
    (p : List String) : walk v pat tgt 0 p = ⟨[], [], []⟩ := rfl

theorem walk_moves_src_sublist (v : List Entry) (pat : String → Bool)
    (tgt : List String) (fuel : Nat) (p : List String) :
    List.Sublist ((walk v pat tgt fuel p).moves.map MoveReq.src)
      (walk v pat tgt fuel p).tested := by
  induction fuel generalizing p with
  | zero => simp [walk_zero]
  | succ fuel ih =>
    rw [walk_succ]
    exact walkChildren_moves_src_sublist _ _ _ _ _ (fun q => ih q)

theorem dirOnPath {v : List Entry} (hwf : WF v) :
    ∀ n : Nat, ∀ e ∈ v, ∀ k : Nat, 0 < k → k < e.path.length →
      e.path.length - k ≤ n →
      ∃ d ∈ v, d.path = e.path.take k ∧ d.isDir = true := by
  intro n
  induction n with
  | zero => intro e he k h1 h2 h3; omega
  | succ n ih =>
    intro e he k h1 h2 h3
    by_cases hk : k = e.path.length - 1
    · obtain ⟨hne, hpar⟩ := hwf.2 e he
      have hdl : e.path.dropLast ≠ [] := by
        have hq : e.path.dropLast.length = e.path.length - 1 := by simp
        intro hnil
        rw [hnil] at hq
        simp at hq
        omega
      obtain ⟨d, hd, hdp, hdd⟩ := hpar hdl
      refine ⟨d, hd, ?_, hdd⟩
      rw [hdp, List.dropLast_eq_take, hk]
    · obtain ⟨d, hd, hdp, hdd⟩ := ih e he (k + 1) (by omega) (by omega) (by omega)
      obtain ⟨hne, hpar⟩ := hwf.2 d hd
      have hdlen : d.path.length = k + 1 := by
        rw [hdp]
        simp
        omega
      have hdl : d.path.dropLast ≠ [] := by
        have hq : d.path.dropLast.length = k := by simp [hdlen]
        intro hnil
        rw [hnil] at hq
        simp at hq
        omega
      obtain ⟨d2, hd2, hdp2, hdd2⟩ := hpar hdl
      refine ⟨d2, hd2, ?_, hdd2⟩
      rw [hdp2, hdp, List.dropLast_eq_take, List.take_take, hdp] at *
      rw [hdlen]
      have hmin : min (k + 1 - 1) (k + 1) = k := by omega
      rw [hmin]

theorem walk_tested_mem {v : List Entry} (hwf : WF v) (pat : String → Bool)
    (tgt : List String) :
    ∀ fuel : Nat, ∀ p : List String,
      (∀ e ∈ v, strictUnder p e.path → e.path.length ≤ p.length + fuel) →
      ∀ q, (q ∈ (walk v pat tgt fuel p).tested ↔
        ∃ e ∈ v, e.path = q ∧ e.isDir = false ∧ strictUnder p q) := by
  intro fuel
  induction fuel with
  | zero =>
    intro p hdep q
    rw [walk_zero]
    simp only [List.not_mem_nil, false_iff]
    rintro ⟨e, he, rfl, _, hu⟩
    have h1 := hdep e he hu
    have h2 := hu.2
    omega
  | succ fuel ih =>
    intro p hdep q
    rw [walk_succ, walkChildren_tested_mem]
    constructor
    · rintro ⟨e, he, ⟨hd, hq⟩ | ⟨hd, rfl⟩⟩
      · obtain ⟨hev, hne, hdl⟩ := childrenOf_mem.mp he
        have hdep2 : ∀ e2 ∈ v, strictUnder e.path e2.path →
            e2.path.length ≤ e.path.length + fuel := by
          intro e2 he2 hu2
          have hu3 : strictUnder p e2.path :=
            strictUnder_trans_child (child_strictUnder hne hdl).1 hu2
          have := hdep e2 he2 hu3
          rw [child_length hne hdl]
          omega
        obtain ⟨e2, he2, rfl, hf2, hu2⟩ := (ih e.path hdep2 q).mp hq
        exact ⟨e2, he2, rfl, hf2,
          strictUnder_trans_child (child_strictUnder hne hdl).1 hu2⟩
      · obtain ⟨hev, hne, hdl⟩ := childrenOf_mem.mp he
        exact ⟨e, hev, rfl, hd, child_strictUnder hne hdl⟩
    · rintro ⟨e, he, rfl, hf, hu⟩
      by_cases hlen : e.path.length = p.length + 1
      · have hne : e.path ≠ [] := by
          intro hnil
          rw [hnil] at hlen
          simp at hlen
        have hdl : e.path.dropLast = p := by
          rw [List.dropLast_eq_take, hlen]
          have : p.length + 1 - 1 = p.length := by omega
          rw [this]
          exact hu.1
        exact ⟨e, childrenOf_mem.mpr ⟨he, hne, hdl⟩, Or.inr ⟨hf, rfl⟩⟩
      · have hgt : p.length + 1 < e.path.length := by
          have := hu.2
          omega
        obtain ⟨d, hd, hdp, hdd⟩ :=
          dirOnPath hwf e.path.length e he (p.length + 1) (by omega) hgt (by omega)
        have hdne : d.path ≠ [] := by
          intro hnil
          have := congrArg List.length hdp
          rw [hnil] at this
          simp at this
          omega
        have hddl : d.path.dropLast = p := by
          rw [hdp, List.dropLast_eq_take, List.take_take]
          have h5 : (List.take (p.length + 1) e.path).length = p.length + 1 := by
            simp
            omega
          rw [h5]
          have hmin : min (p.length + 1 - 1) (p.length + 1) = p.length := by omega
          rw [hmin]
          exact hu.1
        have hchild : d ∈ childrenOf v p := childrenOf_mem.mpr ⟨hd, hdne, hddl⟩
        refine ⟨d, hchild, Or.inl ⟨hdd, ?_⟩⟩
        have hdep2 : ∀ e2 ∈ v, strictUnder d.path e2.path →
            e2.path.length ≤ d.path.length + fuel := by
          intro e2 he2 hu2
          have hu3 : strictUnder p e2.path :=
            strictUnder_trans_child (child_strictUnder hdne hddl).1 hu2
          have h6 := hdep e2 he2 hu3
          rw [child_length hdne hddl]
          omega
        have hdplen : d.path.length = p.length + 1 := child_length hdne hddl
        refine (ih d.path hdep2 e.path).mpr ⟨e, he, rfl, hf, ?_, ?_⟩
        · rw [hdplen, hdp]
        · rw [hdplen]
          exact hgt

theorem walk_tested_under (v : List Entry) (pat : String → Bool)
    (tgt : List String) :
    ∀ fuel : Nat, ∀ p q, q ∈ (walk v pat tgt fuel p).tested →
      strictUnder p q ∧ ∃ e ∈ v, e.path = q ∧ e.isDir = false := by
  intro fuel
  induction fuel with
  | zero => intro p q hq; rw [walk_zero] at hq; cases hq
  | succ fuel ih =>
    intro p q hq
    rw [walk_succ, walkChildren_tested_mem] at hq
    obtain ⟨e, he, h⟩ := hq
    obtain ⟨hev, hne, hdl⟩ := childrenOf_mem.mp he
    rcases h with ⟨hd, hq2⟩ | ⟨hd, rfl⟩
    · obtain ⟨hu, hfile⟩ := ih e.path q hq2
      exact ⟨strictUnder_trans_child (child_strictUnder hne hdl).1 hu, hfile⟩
    · exact ⟨child_strictUnder hne hdl, e, hev, rfl, hd⟩

theorem walkChildren_moves_iff_tested (tgt : List String) (pat : String → Bool)
    (rec : List String → WalkOut) (completed : List MoveReq) (es : List Entry)
    (hrec : ∀ q m, m ∈ (rec q).moves ↔
      (m.src ∈ (rec q).tested ∧ pat (m.src.getLastD "") = true ∧
       m.dst = tgt ++ [m.src.getLastD ""])) (m : MoveReq) :
    m ∈ (walkChildren tgt pat rec completed es).moves ↔
      (m.src ∈ (walkChildren tgt pat rec completed es).tested ∧
       pat (m.src.getLastD "") = true ∧ m.dst = tgt ++ [m.src.getLastD ""]) := by
  rw [walkChildren_moves_mem, walkChildren_tested_mem]
  constructor
  · rintro ⟨e, he, ⟨hd, hm⟩ | ⟨hd, hp, rfl⟩⟩
    · obtain ⟨ht, hp, hdst⟩ := (hrec e.path m).mp hm
      exact ⟨⟨e, he, Or.inl ⟨hd, ht⟩⟩, hp, hdst⟩
    · exact ⟨⟨e, he, Or.inr ⟨hd, rfl⟩⟩, hp, rfl⟩
  · rintro ⟨⟨e, he, ⟨hd, ht⟩ | ⟨hd, hsrc⟩⟩, hp, hdst⟩
    · exact ⟨e, he, Or.inl ⟨hd, (hrec e.path m).mpr ⟨ht, hp, hdst⟩⟩⟩
    · refine ⟨e, he, Or.inr ⟨hd, by rw [← hsrc]; exact hp, ?_⟩⟩
      cases m
      simp only at hsrc hdst ⊢
      rw [hsrc, hdst]
      rw [hsrc]

theorem walk_moves_iff_tested (v : List Entry) (pat : String → Bool)
    (tgt : List String) :
    ∀ fuel : Nat, ∀ p m, m ∈ (walk v pat tgt fuel p).moves ↔
      (m.src ∈ (walk v pat tgt fuel p).tested ∧
       pat (m.src.getLastD "") = true ∧ m.dst = tgt ++ [m.src.getLastD ""]) := by
  intro fuel
  induction fuel with
  | zero => intro p m; rw [walk_zero]; simp
  | succ fuel ih =>
    intro p m
    rw [walk_succ]
    exact walkChildren_moves_iff_tested tgt pat _ [] (childrenOf v p)
      (fun q m2 => ih q m2) m

theorem strictUnder_same_length {a b q : List String}
    (ha : strictUnder a q) (hb : strictUnder b q) (hlen : a.length = b.length) :
    a = b := by
  rw [← ha.1, ← hb.1, hlen]

theorem walkChildren_tested_nodup (tgt : List String) (pat : String → Bool)
    (rec : List String → WalkOut) (p : List String) :
    ∀ es : List Entry, ∀ completed : List MoveReq,
      (∀ e ∈ es, e.path ≠ [] ∧ e.path.dropLast = p) →
      (es.map Entry.path).Nodup →
      (∀ e ∈ es, e.isDir = true → (rec e.path).tested.Nodup) →
      (∀ e ∈ es, e.isDir = true → ∀ q ∈ (rec e.path).tested, strictUnder e.path q) →
      (walkChildren tgt pat rec completed es).tested.Nodup := by
  intro es
  induction es with
  | nil => intro completed _ _ _ _; simp [walkChildren_nil]
  | cons e es ih =>
    intro completed hshape hnd hrecN hrecU
    have hshape_e := hshape e (List.mem_cons_self e es)
    have hlen_e : e.path.length = p.length + 1 :=
      child_length hshape_e.1 hshape_e.2
    have hnd2 : (es.map Entry.path).Nodup := by
      rw [List.map_cons, List.nodup_cons] at hnd
      exact hnd.2
    have hnotin : e.path ∉ es.map Entry.path := by
      rw [List.map_cons, List.nodup_cons] at hnd
      exact hnd.1
    have htail : ∀ completed2,
        (walkChildren tgt pat rec completed2 es).tested.Nodup := by
      intro completed2
      exact ih completed2 (fun e2 he2 => hshape e2 (List.mem_cons_of_mem e he2))
        hnd2 (fun e2 he2 => hrecN e2 (List.mem_cons_of_mem e he2))
        (fun e2 he2 => hrecU e2 (List.mem_cons_of_mem e he2))
    have hdisj : ∀ (completed2 : List MoveReq) (q : List String),
        q ∈ (walkChildren tgt pat rec completed2 es).tested →
        (e.isDir = true → q ∈ (rec e.path).tested → False) ∧
        (e.isDir = false → q = e.path → False) := by
      intro completed2 q hq
      rw [walkChildren_tested_mem] at hq
      obtain ⟨e2, he2, h2⟩ := hq
      have hshape_e2 := hshape e2 (List.mem_cons_of_mem e he2)
      have hlen_e2 : e2.path.length = p.length + 1 :=
        child_length hshape_e2.1 hshape_e2.2
      have hne_paths : e.path ≠ e2.path := by
        intro hEq
        exact hnotin (hEq ▸ List.mem_map_of_mem Entry.path he2)
      constructor
      · intro hd hqe
        have hu1 := hrecU e (List.mem_cons_self e es) hd q hqe
        rcases h2 with ⟨hd2, hq2⟩ | ⟨hd2, rfl⟩
        · have hu2 := hrecU e2 (List.mem_cons_of_mem e he2) hd2 q hq2
          exact hne_paths (strictUnder_same_length hu1 hu2 (by omega))
        · have := hu1.2
          omega
      · intro hd hqe
        subst hqe
        rcases h2 with ⟨hd2, hq2⟩ | ⟨hd2, hq2⟩
        · have hu2 := hrecU e2 (List.mem_cons_of_mem e he2) hd2 e.path hq2
          have hlt := hu2.2
          omega
        · exact hne_paths hq2
    cases hd : e.isDir with
    | true =>
      rw [walkChildren_cons_dir tgt pat rec completed e es hd]
      rw [List.nodup_append]
      refine ⟨hrecN e (List.mem_cons_self e es) hd, htail _, ?_⟩
      intro q hq1 hq2
      exact (hdisj _ q hq2).1 hd hq1
    | false =>
      cases hp : pat (e.path.getLastD "") with
      | true =>
        rw [walkChildren_cons_file_match tgt pat rec completed e es hd hp]
        rw [List.nodup_cons]
        refine ⟨?_, htail _⟩
        intro hmem
        exact (hdisj _ e.path hmem).2 hd rfl
      | false =>
        rw [walkChildren_cons_file_nomatch tgt pat rec completed e es hd hp]
        rw [List.nodup_cons]
        refine ⟨?_, htail _⟩
        intro hmem
        exact (hdisj _ e.path hmem).2 hd rfl

theorem walk_tested_nodup (v : List Entry) (pat : String → Bool)
    (tgt : List String) (hnd : (v.map Entry.path).Nodup) :
    ∀ fuel : Nat, ∀ p, (walk v pat tgt fuel p).tested.Nodup := by
  intro fuel
  induction fuel with
  | zero => intro p; rw [walk_zero]; exact List.nodup_nil
  | succ fuel ih =>
    intro p
    rw [walk_succ]
    refine walkChildren_tested_nodup tgt pat _ p (childrenOf v p) [] ?_ ?_ ?_ ?_
    · intro e he
      exact (childrenOf_mem.mp he).2
    · have hsub : List.Sublist (childrenOf v p) v := List.filter_sublist v
      exact (hnd.sublist (hsub.map Entry.path))
    · intro e _ _
      exact ih e.path
    · intro e _ _ q hq
      exact (walk_tested_under v pat tgt fuel e.path q hq).1

theorem pairsOf_mem {cs ms : List MoveReq} {x : MoveReq × MoveReq} :
    x ∈ pairsOf cs ms ↔ x.1 ∈ cs ∧ x.2 ∈ ms := by
  induction cs with
  | nil => simp [pairsOf]
  | cons c cs ih =>
    simp only [pairsOf, List.foldr_cons, List.mem_append, List.mem_cons]
    rw [show (List.foldr (fun c acc => ms.map (fun m => (c, m)) ++ acc) [] cs) =
      pairsOf cs ms from rfl, ih]
    cases x with
    | mk x1 x2 =>
      simp only [List.mem_map, Prod.mk.injEq]
      constructor
      · rintro (⟨m, hm, rfl, rfl⟩ | ⟨h1, h2⟩)
        · exact ⟨Or.inl rfl, hm⟩
        · exact ⟨Or.inr h1, h2⟩
      · rintro ⟨rfl | h1, h2⟩
        · exact Or.inl ⟨x2, h2, rfl, rfl⟩
        · exact Or.inr ⟨h1, h2⟩

theorem walkChildren_blocked_shape (tgt : List String) (pat : String → Bool)
    (rec : List String → WalkOut) (P : MoveReq → Prop) :
    ∀ es : List Entry, ∀ completed : List MoveReq,
      (∀ c ∈ completed, P c) →
      (∀ e ∈ es, e.isDir = true → ∀ pair ∈ (rec e.path).blocked, P pair.1) →
      (∀ e ∈ es, e.isDir = true → ∀ m ∈ (rec e.path).moves, P m) →
      ∀ pair ∈ (walkChildren tgt pat rec completed es).blocked, P pair.1 := by
  intro es
  induction es with
  | nil => intro completed _ _ _ pair hpair; simp [walkChildren_nil] at hpair
  | cons e es ih =>
    intro completed hcomp hrecB hrecM pair hpair
    cases hd : e.isDir with
    | true =>
      rw [walkChildren_cons_dir tgt pat rec completed e es hd] at hpair
      simp only [List.mem_append] at hpair
      rcases hpair with (hpair | hpair) | hpair
      · exact hrecB e (List.mem_cons_self e es) hd pair hpair
      · exact hcomp pair.1 (pairsOf_mem.mp hpair).1
      · refine ih (completed ++ (rec e.path).moves) ?_
          (fun e2 he2 => hrecB e2 (List.mem_cons_of_mem e he2))
          (fun e2 he2 => hrecM e2 (List.mem_cons_of_mem e he2)) pair hpair
        intro c hc
        rcases List.mem_append.mp hc with hc | hc
        · exact hcomp c hc
        · exact hrecM e (List.mem_cons_self e es) hd c hc
    | false =>
      cases hp : pat (e.path.getLastD "") with
      | true =>
        rw [walkChildren_cons_file_match tgt pat rec completed e es hd hp] at hpair
        rcases List.mem_append.mp hpair with hpair | hpair
        · exact hcomp pair.1 (pairsOf_mem.mp hpair).1
        · exact ih completed hcomp
            (fun e2 he2 => hrecB e2 (List.mem_cons_of_mem e he2))
            (fun e2 he2 => hrecM e2 (List.mem_cons_of_mem e he2)) pair hpair
      | false =>
        rw [walkChildren_cons_file_nomatch tgt pat rec completed e es hd hp] at hpair
        exact ih completed hcomp
          (fun e2 he2 => hrecB e2 (List.mem_cons_of_mem e he2))
          (fun e2 he2 => hrecM e2 (List.mem_cons_of_mem e he2)) pair hpair

theorem walk_moves_src_under (v : List Entry) (pat : String → Bool)
    (tgt : List String) (fuel : Nat) (p : List String) (m : MoveReq)
    (hm : m ∈ (walk v pat tgt fuel p).moves) : strictUnder p m.src := by
  have h1 := (walk_moves_iff_tested v pat tgt fuel p m).mp hm
  exact (walk_tested_under v pat tgt fuel p m.src h1.1).1

theorem walk_blocked_first_deep (v : List Entry) (pat : String → Bool)
    (tgt : List String) :
    ∀ fuel : Nat, ∀ p, ∀ pair ∈ (walk v pat tgt fuel p).blocked,
      p.length + 2 ≤ pair.1.src.length := by
  intro fuel
  induction fuel with
  | zero => intro p pair hpair; rw [walk_zero] at hpair; cases hpair
  | succ fuel ih =>
    intro p pair hpair
    rw [walk_succ] at hpair
    refine walkChildren_blocked_shape tgt pat _
      (fun m => p.length + 2 ≤ m.src.length) (childrenOf v p) [] ?_ ?_ ?_ pair hpair
    · intro c hc; cases hc
    · intro e he hd pair2 hpair2
      obtain ⟨_, hne, hdl⟩ := childrenOf_mem.mp he
      have h1 := ih e.path pair2 hpair2
      have h2 := child_length hne hdl
      omega
    · intro e he hd m hm
      obtain ⟨_, hne, hdl⟩ := childrenOf_mem.mp he
      have h1 := (walk_moves_src_under v pat tgt fuel e.path m hm).2
      have h2 := child_length hne hdl
      omega

theorem entry_unique {v : List Entry} (hnd : (v.map Entry.path).Nodup)
    {e1 e2 : Entry} (h1 : e1 ∈ v) (h2 : e2 ∈ v) (hp : e1.path = e2.path) :
    e1 = e2 :=
  List.inj_on_of_nodup_map hnd h1 h2 hp

theorem applyMoves_all_ok (tgt : List String) :
    ∀ (ms : List MoveReq) (v : List Entry),
      (v.map Entry.path).Nodup →
      (ms.map MoveReq.src).Nodup →
      (ms.map MoveReq.dst).Nodup →
      (∀ m ∈ ms, (⟨m.src, false⟩ : Entry) ∈ v) →
      (∀ m ∈ ms, ∀ e ∈ v, e.path ≠ m.dst) →
      (∀ m ∈ ms, m.dst.dropLast = tgt) →
      (⟨tgt, true⟩ : Entry) ∈ v →
      applyMoves v ms =
        (v.filter (fun e => decide (e.path ∉ ms.map MoveReq.src)) ++
           ms.map (fun m => ⟨m.dst, false⟩),
         ms.map (fun m => Notice.movedFile m.src m.dst)) := by
  intro ms
  induction ms with
  | nil =>
    intro v _ _ _ _ _ _ _
    simp [applyMoves]
  | cons m ms ih =>
    intro v hnd hsu hdu hsrc hfree hdl htgt
    have hsrc_m : (⟨m.src, false⟩ : Entry) ∈ v := hsrc m (List.mem_cons_self m ms)
    have hres : resolve v m.src = some ⟨m.src, false⟩ := resolve_of_mem hnd hsrc_m
    have hdstnone : resolve v m.dst = none :=
      resolve_eq_none.mpr (fun e he => hfree m (List.mem_cons_self m ms) e he)
    have hrtgt : resolve v tgt = some ⟨tgt, true⟩ := resolve_of_mem hnd htgt
    have hdirAt : dirAt v m.dst.dropLast = true := by
      rw [hdl m (List.mem_cons_self m ms)]
      simp [dirAt, hrtgt]
    have hren : renameOp v m.src m.dst =
        .ok (v.filter (fun e2 => decide (e2.path ≠ m.src)) ++ [⟨m.dst, false⟩]) := by
      simp [renameOp, hres, hdstnone, hdirAt]
    have hmv : moveFile v m = (v.filter (fun e2 => decide (e2.path ≠ m.src)) ++
        [⟨m.dst, false⟩], .movedFile m.src m.dst) := by
      simp [moveFile, hren]
    have hdst_not_v : ∀ e ∈ v, e.path ≠ m.dst :=
      fun e he => hfree m (List.mem_cons_self m ms) e he
    have hmsrc_tail : m.src ∉ ms.map MoveReq.src := by
      rw [List.map_cons, List.nodup_cons] at hsu
      exact hsu.1
    have hmdst_tail : m.dst ∉ ms.map MoveReq.dst := by
      rw [List.map_cons, List.nodup_cons] at hdu
      exact hdu.1
    set v' := v.filter (fun e2 => decide (e2.path ≠ m.src)) ++ [⟨m.dst, false⟩] with hv'
    have hfilter_mem : ∀ e : Entry, e ∈ v.filter (fun e2 => decide (e2.path ≠ m.src)) ↔
        e ∈ v ∧ e.path ≠ m.src := by
      intro e
      simp [List.mem_filter]
    have hv'_mem : ∀ e : Entry, e ∈ v' ↔ (e ∈ v ∧ e.path ≠ m.src) ∨ e = ⟨m.dst, false⟩ := by
      intro e
      rw [hv', List.mem_append, hfilter_mem]
      simp
    have hnd' : (v'.map Entry.path).Nodup := by
      rw [hv', List.map_append, List.nodup_append]
      refine ⟨hnd.sublist ((List.filter_sublist v).map Entry.path), by simp, ?_⟩
      intro x hx
      simp only [List.map_cons, List.map_nil, List.mem_singleton]
      intro hx2
      subst hx2
      obtain ⟨e, he, hep⟩ := List.mem_map.mp hx
      exact hdst_not_v e ((hfilter_mem e).mp he).1 hep
    have htgt_ne_src : tgt ≠ m.src := by
      intro hEq
      have := entry_unique hnd htgt hsrc_m (by simp [hEq])
      simp at this
    have htgt' : (⟨tgt, true⟩ : Entry) ∈ v' := by
      rw [hv', List.mem_append, hfilter_mem]
      exact Or.inl ⟨htgt, htgt_ne_src⟩
    have hsrc' : ∀ m2 ∈ ms, (⟨m2.src, false⟩ : Entry) ∈ v' := by
      intro m2 hm2
      rw [hv', List.mem_append, hfilter_mem]
      refine Or.inl ⟨hsrc m2 (List.mem_cons_of_mem m hm2), ?_⟩
      intro hEq
      exact hmsrc_tail (hEq ▸ List.mem_map_of_mem MoveReq.src hm2)
    have hfree' : ∀ m2 ∈ ms, ∀ e ∈ v', e.path ≠ m2.dst := by
      intro m2 hm2 e he
      rcases (hv'_mem e).mp he with ⟨hev, _⟩ | rfl
      · exact hfree m2 (List.mem_cons_of_mem m hm2) e hev
      · intro hEq
        apply hmdst_tail
        have h7 : m.dst = m2.dst := hEq
        rw [h7]
        exact List.mem_map_of_mem MoveReq.dst hm2
    have ihres := ih v' hnd'
      (by rw [List.map_cons, List.nodup_cons] at hsu; exact hsu.2)
      (by rw [List.map_cons, List.nodup_cons] at hdu; exact hdu.2)
      hsrc' hfree' (fun m2 hm2 => hdl m2 (List.mem_cons_of_mem m hm2)) htgt'
    have happ : applyMoves v (m :: ms) = ((applyMoves v' ms).1,
        Notice.movedFile m.src m.dst :: (applyMoves v' ms).2) := by
      simp [applyMoves, hmv]
    rw [happ, ihres]
    have hsrcs_sub : ∀ s ∈ ms.map MoveReq.src, ∃ e ∈ v, e.path = s := by
      intro s hs
      obtain ⟨m2, hm2, rfl⟩ := List.mem_map.mp hs
      exact ⟨⟨m2.src, false⟩, hsrc m2 (List.mem_cons_of_mem m hm2), rfl⟩
    have hvault_eq : v'.filter (fun e => decide (e.path ∉ ms.map MoveReq.src)) ++
        ms.map (fun m2 => (⟨m2.dst, false⟩ : Entry)) =
        v.filter (fun e => decide (e.path ∉ (m :: ms).map MoveReq.src)) ++
          (m :: ms).map (fun m2 => (⟨m2.dst, false⟩ : Entry)) := by
      rw [hv', List.filter_append]
      have h1 : (v.filter (fun e2 => decide (e2.path ≠ m.src))).filter
          (fun e => decide (e.path ∉ ms.map MoveReq.src)) =
          v.filter (fun e => decide (e.path ∉ (m :: ms).map MoveReq.src)) := by
        rw [List.filter_filter]
        refine List.filter_congr ?_
        intro e _
        simp only [List.map_cons, List.mem_cons, not_or]
        rw [Bool.decide_and, Bool.and_comm]
      have h2 : ([(⟨m.dst, false⟩ : Entry)]).filter
          (fun e => decide (e.path ∉ ms.map MoveReq.src)) = [⟨m.dst, false⟩] := by
        simp only [List.filter_cons, List.filter_nil]
        have : m.dst ∉ ms.map MoveReq.src := by
          intro hmem
          obtain ⟨e, he, hep⟩ := hsrcs_sub m.dst hmem
          exact hdst_not_v e he hep
        simp [this]
      rw [h1, h2, List.append_assoc]
      simp
    rw [hvault_eq]
    simp

theorem le_maxLen {v : List Entry} {e : Entry} (he : e ∈ v) :
    e.path.length ≤ maxLen v := by
  induction v with
  | nil => cases he
  | cons a v ih =>
    have hstep : maxLen (a :: v) = max a.path.length (maxLen v) := rfl
    rcases List.mem_cons.mp he with rfl | he2
    · rw [hstep]; exact Nat.le_max_left _ _
    · rw [hstep]; exact Nat.le_trans (ih he2) (Nat.le_max_right _ _)

theorem renameOp_ok_shape {v v2 : List Entry} {src dst : List String}
    (h : renameOp v src dst = .ok v2) :
    ∃ e0, resolve v src = some e0 ∧ resolve v dst = none ∧
      v2 = v.filter (fun e2 => decide (e2.path ≠ src)) ++ [⟨dst, e0.isDir⟩] := by
  cases hres : resolve v src with
  | none => simp [renameOp, hres] at h
  | some e0 =>
    cases hdn : resolve v dst with
    | some e1 => simp [renameOp, hres, hdn] at h
    | none =>
      refine ⟨e0, rfl, rfl, ?_⟩
      simp only [renameOp, hres, hdn, Option.isSome_none, Bool.false_eq_true,
        if_false] at h
      split_ifs at h with h2
      injection h with h3
      exact h3.symm

theorem applyMoves_dirs_preserved :
    ∀ (ms : List MoveReq) (v : List Entry),
      (v.map Entry.path).Nodup →
      (∀ m ∈ ms, ∀ e ∈ v, e.path = m.src → e.isDir = false) →
      (applyMoves v ms).1.filter (fun e => e.isDir) = v.filter (fun e => e.isDir) := by
  intro ms
  induction ms with
  | nil => intro v _ _; rfl
  | cons m ms ih =>
    intro v hnd hsrcs
    cases hr : renameOp v m.src m.dst with
    | error msg =>
      have hmv : moveFile v m = (v, .moveFailed m.src) := by simp [moveFile, hr]
      have happ : (applyMoves v (m :: ms)).1 = (applyMoves v ms).1 := by
        simp [applyMoves, hmv]
      rw [happ]
      exact ih v hnd (fun m2 hm2 => hsrcs m2 (List.mem_cons_of_mem m hm2))
    | ok v2 =>
      obtain ⟨e0, hres, hdn, hv2⟩ := renameOp_ok_shape hr
      obtain ⟨he0v, he0p⟩ := resolve_eq_some hres
      have he0f : e0.isDir = false := hsrcs m (List.mem_cons_self m ms) e0 he0v he0p
      have hdst_not : ∀ e ∈ v, e.path ≠ m.dst := resolve_eq_none.mp hdn
      have hmv : moveFile v m = (v2, .movedFile m.src m.dst) := by
        simp [moveFile, hr]
      have happ : (applyMoves v (m :: ms)).1 = (applyMoves v2 ms).1 := by
        simp [applyMoves, hmv]
      have hmemf : ∀ e : Entry, e ∈ v.filter (fun e2 => decide (e2.path ≠ m.src)) ↔
          e ∈ v ∧ e.path ≠ m.src := by
        intro e; simp [List.mem_filter]
      have hnd2 : (v2.map Entry.path).Nodup := by
        rw [hv2, List.map_append, List.nodup_append]
        refine ⟨hnd.sublist ((List.filter_sublist v).map Entry.path), by simp, ?_⟩
        intro x hx
        simp only [List.map_cons, List.map_nil, List.mem_singleton]
        intro hx2
        subst hx2
        obtain ⟨e, he, hep⟩ := List.mem_map.mp hx
        exact hdst_not e ((hmemf e).mp he).1 hep
      have hsrcs2 : ∀ m2 ∈ ms, ∀ e ∈ v2, e.path = m2.src → e.isDir = false := by
        intro m2 hm2 e he hep
        rw [hv2, List.mem_append] at he
        rcases he with he | he
        · exact hsrcs m2 (List.mem_cons_of_mem m hm2) e ((hmemf e).mp he).1 hep
        · simp only [List.mem_singleton] at he
          rw [he]
          exact he0f
      have hdirs2 : v2.filter (fun e => e.isDir) = v.filter (fun e => e.isDir) := by
        rw [hv2, List.filter_append]
        have hsingle : ([(⟨m.dst, e0.isDir⟩ : Entry)]).filter (fun e => e.isDir) = [] := by
          simp [he0f]
        rw [hsingle, List.append_nil, List.filter_filter]
        refine List.filter_congr ?_
        intro e he
        cases hde : e.isDir with
        | false => simp
        | true =>
          have hne : e.path ≠ m.src := by
            intro hEq
            have := hsrcs m (List.mem_cons_self m ms) e he hEq
            rw [hde] at this
            cases this
          simp [hne]
      rw [happ, ih v2 hnd2 hsrcs2, hdirs2]

theorem walkChildren_blocked_snd (tgt : List String) (pat : String → Bool)
    (rec : List String → WalkOut) :
    ∀ es : List Entry, ∀ completed : List MoveReq,
      (∀ e ∈ es, e.isDir = true →
        ∀ pair ∈ (rec e.path).blocked, pair.2 ∈ (rec e.path).moves) →
      ∀ pair ∈ (walkChildren tgt pat rec completed es).blocked,
        pair.2 ∈ (walkChildren tgt pat rec completed es).moves := by
  intro es
  induction es with
  | nil => intro completed _ pair hpair; simp [walkChildren_nil] at hpair
  | cons e es ih =>
    intro completed hrec pair hpair
    cases hd : e.isDir with
    | true =>
      rw [walkChildren_cons_dir tgt pat rec completed e es hd] at hpair ⊢
      simp only [List.mem_append] at hpair ⊢
      rcases hpair with (hpair | hpair) | hpair
      · exact Or.inl (hrec e (List.mem_cons_self e es) hd pair hpair)
      · exact Or.inl (pairsOf_mem.mp hpair).2
      · exact Or.inr (ih _ (fun e2 he2 => hrec e2 (List.mem_cons_of_mem e he2))
          pair hpair)
    | false =>
      cases hp : pat (e.path.getLastD "") with
      | true =>
        rw [walkChildren_cons_file_match tgt pat rec completed e es hd hp] at hpair ⊢
        rcases List.mem_append.mp hpair with hpair | hpair
        · have h2 := (pairsOf_mem.mp hpair).2
          simp only [List.mem_singleton] at h2
          rw [h2]
          exact List.mem_cons_self _ _
        · exact List.mem_cons_of_mem _
            (ih _ (fun e2 he2 => hrec e2 (List.mem_cons_of_mem e he2)) pair hpair)
      | false =>
        rw [walkChildren_cons_file_nomatch tgt pat rec completed e es hd hp] at hpair ⊢
        exact ih _ (fun e2 he2 => hrec e2 (List.mem_cons_of_mem e he2)) pair hpair

theorem walk_blocked_snd (v : List Entry) (pat : String → Bool)
    (tgt : List String) :
    ∀ fuel : Nat, ∀ p, ∀ pair ∈ (walk v pat tgt fuel p).blocked,
      pair.2 ∈ (walk v pat tgt fuel p).moves := by
  intro fuel
  induction fuel with
  | zero => intro p pair hpair; rw [walk_zero] at hpair; cases hpair
  | succ fuel ih =>
    intro p pair hpair
    rw [walk_succ] at hpair ⊢
    exact walkChildren_blocked_snd tgt pat _ (childrenOf v p) []
      (fun e _ _ => ih e.path) pair hpair

theorem executeMoveRule_valid (compile : String → Option (String → Bool))
    (v v1 : List Entry) (rule : MoveRule) (s : Entry)
    (hen : rule.enabled = true)
    (hs : resolve v rule.sourcePath = some s) (hd : s.isDir = true)
    (hens : ensureTarget v rule.targetPath = some v1) :
    executeMoveRule compile v rule = matchAndMove compile v1 rule := by
  simp [executeMoveRule, hen, hs, hd, hens]

theorem matchAndMove_some (compile : String → Option (String → Bool))
    (v1 : List Entry) (rule : MoveRule) (pat : String → Bool)
    (hcomp : compile rule.filePattern = some pat) :
    matchAndMove compile v1 rule =
      ⟨(applyMoves v1 (ruleWalk v1 pat rule).moves).1,
       (applyMoves v1 (ruleWalk v1 pat rule).moves).2,
       (ruleWalk v1 pat rule).moves, (ruleWalk v1 pat rule).blocked,
       (ruleWalk v1 pat rule).tested⟩ := by
  simp [matchAndMove, hcomp]

theorem matchAndMove_none (compile : String → Option (String → Bool))
    (v1 : List Entry) (rule : MoveRule)
    (hcomp : compile rule.filePattern = none) :
    matchAndMove compile v1 rule =
      ⟨v1, [.invalidPattern rule.filePattern], [], [], []⟩ := by
  simp [matchAndMove, hcomp]

/-! ### Claim theorems -/

/-- Claim C5: for every rule with `enabled = false`, `executeMoveRule`
performs zero tree mutations — the vault is returned unchanged, no folder
is created, no move is issued — and only the disabled-rule notice is
emitted. -/
theorem c5_disabled_rule_no_mutation (compile : String → Option (String → Bool))
    (v : List Entry) (rule : MoveRule) (h : rule.enabled = false) :
    executeMoveRule compile v rule = ⟨v, [.ruleDisabled rule.name], [], [], []⟩ := by
  simp [executeMoveRule, h]

/-- Witness for C5 at a concrete disabled rule. -/
theorem c5_witness :
    ruleOff.enabled = false ∧
    executeMoveRule jsCompile vPlain ruleOff =
      ⟨vPlain, [.ruleDisabled "plain"], [], [], []⟩ :=
  ⟨rfl, c5_disabled_rule_no_mutation jsCompile vPlain ruleOff rfl⟩

/-- Claim C8: when the rule's source path resolves to nothing, or to an
entry that is not a folder, `executeMoveRule` reports source-not-found and
aborts with no tree mutation of any kind (the vault is unchanged, no move
issued, and — because this check precedes the target-ensure step — no
folder created). -/
theorem c8_source_not_found_aborts (compile : String → Option (String → Bool))
    (v : List Entry) (rule : MoveRule)
    (hen : rule.enabled = true)
    (h : resolve v rule.sourcePath = none ∨
         ∃ e, resolve v rule.sourcePath = some e ∧ e.isDir = false) :
    executeMoveRule compile v rule =
      ⟨v, [.sourceNotFound rule.sourcePath], [], [], []⟩ := by
  rcases h with h | ⟨e, he, hd⟩
  · simp [executeMoveRule, hen, h]
  · simp [executeMoveRule, hen, he, hd]

/-- Witness for C8: the source path names a plain file. -/
theorem c8_witness :
    (∃ e, resolve vSrcFile rulePlain.sourcePath = some e ∧ e.isDir = false) ∧
    executeMoveRule jsCompile vSrcFile rulePlain =
      ⟨vSrcFile, [.sourceNotFound ["Inbox"]], [], [], []⟩ :=
  ⟨⟨⟨["Inbox"], false⟩, by decide, rfl⟩,
   c8_source_not_found_aborts jsCompile vSrcFile rulePlain rfl
     (Or.inr ⟨⟨["Inbox"], false⟩, by decide, rfl⟩)⟩

/-- Claim C2, amended: a pattern that fails to compile aborts the
invocation with the invalid-pattern notice and no file is moved — but the
claim's "zero tree mutations" fails on the code, because the target folder
is ensured (lines 81-89) before the pattern is compiled (line 93): the
invocation returns the vault as left by the ensure step, which may contain
a freshly created target folder. -/
theorem c2_invalid_pattern_no_moves (compile : String → Option (String → Bool))
    (v v1 : List Entry) (rule : MoveRule) (s : Entry)
    (hen : rule.enabled = true)
    (hs : resolve v rule.sourcePath = some s) (hd : s.isDir = true)
    (hens : ensureTarget v rule.targetPath = some v1)
    (hcomp : compile rule.filePattern = none) :
    executeMoveRule compile v rule =
      ⟨v1, [.invalidPattern rule.filePattern], [], [], []⟩ := by
  rw [executeMoveRule_valid compile v v1 rule s hen hs hd hens]
  exact matchAndMove_none compile v1 rule hcomp

/-- Counterexample to C2 as stated: with the unbalanced pattern `[` and an
absent target folder, the invocation does mutate the tree — the target
folder `T` is created before compilation fails. -/
theorem c2_counterexample_target_created :
    (jsCompile ruleBracket.filePattern).isSome = false ∧
    (executeMoveRule jsCompile vNoTarget ruleBracket).vault ≠ vNoTarget ∧
    (⟨["T"], true⟩ : Entry) ∈ (executeMoveRule jsCompile vNoTarget ruleBracket).vault := by
  decide

/-- Witness for the amended C2 at the concrete unbalanced pattern. -/
theorem c2_witness :
    jsCompile ruleBracket.filePattern = none ∧
    executeMoveRule jsCompile vNoTarget ruleBracket =
      ⟨vNoTarget ++ [⟨["T"], true⟩], [.invalidPattern "["], [], [], []⟩ :=
  ⟨rfl, c2_invalid_pattern_no_moves jsCompile vNoTarget (vNoTarget ++ [⟨["T"], true⟩])
    ruleBracket ⟨["Inbox"], true⟩ rfl (by decide) rfl (by decide) rfl⟩

/-- Claim C4: when exactly one move of the collected set fails, the
failure is caught and reported individually, every other move is applied
and reported, and the failed move neither aborts the invocation nor
changes the final vault or the outcome of any other move — the run equals
the run with the failing move deleted, plus the one failure report. -/
theorem c4_single_failure_isolated (v : List Entry) (l1 l2 : List MoveReq)
    (m : MoveReq)
    (hfail : (moveFile (applyMoves v l1).1 m).2 = .moveFailed m.src)
    (hok1 : (applyMoves v l1).2.all Notice.isMoved = true)
    (hok2 : (applyMoves (applyMoves v l1).1 l2).2.all Notice.isMoved = true) :
    (applyMoves v (l1 ++ m :: l2)).2.length = l1.length + 1 + l2.length ∧
    (applyMoves v (l1 ++ m :: l2)).2 =
      (applyMoves v l1).2 ++ .moveFailed m.src ::
        (applyMoves (applyMoves v l1).1 l2).2 ∧
    (applyMoves v (l1 ++ l2)).1 = (applyMoves v (l1 ++ m :: l2)).1 ∧
    (applyMoves v (l1 ++ l2)).2 =
      (applyMoves v l1).2 ++ (applyMoves (applyMoves v l1).1 l2).2 ∧
    ((applyMoves v (l1 ++ m :: l2)).2.filter
       (fun n => ! n.isMoved)).length = 1 := by
  have hveq : (moveFile (applyMoves v l1).1 m).1 = (applyMoves v l1).1 :=
    moveFile_failed_eq hfail
  have hpair : moveFile (applyMoves v l1).1 m =
      ((applyMoves v l1).1, .moveFailed m.src) := by
    cases hmv : moveFile (applyMoves v l1).1 m with
    | mk a b =>
      rw [hmv] at hveq hfail
      rw [show a = (applyMoves v l1).1 from hveq,
        show b = Notice.moveFailed m.src from hfail]
  have hmid : applyMoves v (l1 ++ m :: l2) =
      ((applyMoves (applyMoves v l1).1 l2).1,
       (applyMoves v l1).2 ++ .moveFailed m.src ::
         (applyMoves (applyMoves v l1).1 l2).2) := by
    rw [applyMoves_append]
    have hstep : applyMoves (applyMoves v l1).1 (m :: l2) =
        ((applyMoves (applyMoves v l1).1 l2).1,
         .moveFailed m.src :: (applyMoves (applyMoves v l1).1 l2).2) := by
      simp [applyMoves, hpair]
    rw [hstep]
  have hwo : applyMoves v (l1 ++ l2) =
      ((applyMoves (applyMoves v l1).1 l2).1,
       (applyMoves v l1).2 ++ (applyMoves (applyMoves v l1).1 l2).2) :=
    applyMoves_append v l1 l2
  refine ⟨?_, ?_, ?_, ?_, ?_⟩
  · rw [hmid]
    simp [applyMoves_length]
    omega
  · rw [hmid]
  · rw [hmid, hwo]
  · rw [hwo]
  · rw [hmid]
    simp only [List.filter_append, List.filter_cons]
    have hf1 : (applyMoves v l1).2.filter (fun n => ! n.isMoved) = [] := by
      rw [List.filter_eq_nil_iff]
      intro n hn
      have := List.all_eq_true.mp hok1 n hn
      simp [this]
    have hf2 : (applyMoves (applyMoves v l1).1 l2).2.filter
        (fun n => ! n.isMoved) = [] := by
      rw [List.filter_eq_nil_iff]
      intro n hn
      have := List.all_eq_true.mp hok2 n hn
      simp [this]
    rw [hf1, hf2]
    simp [Notice.isMoved]

/-- Witness for C4: three collected moves over `vColl`, of which exactly
the middle one collides at the target. -/
theorem c4_witness :
    (moveFile (applyMoves vColl [⟨["Inbox", "a.md"], ["T", "a.md"]⟩]).1
       ⟨["Inbox", "b.md"], ["T", "b.md"]⟩).2 =
      .moveFailed ["Inbox", "b.md"] ∧
    ((applyMoves vColl ([⟨["Inbox", "a.md"], ["T", "a.md"]⟩] ++
        ⟨["Inbox", "b.md"], ["T", "b.md"]⟩ :: [⟨["Inbox", "c.md"], ["T", "c.md"]⟩])).2.length =
      1 + 1 + 1 ∧
     (applyMoves vColl ([⟨["Inbox", "a.md"], ["T", "a.md"]⟩] ++
        ⟨["Inbox", "b.md"], ["T", "b.md"]⟩ :: [⟨["Inbox", "c.md"], ["T", "c.md"]⟩])).2 =
      (applyMoves vColl [⟨["Inbox", "a.md"], ["T", "a.md"]⟩]).2 ++
        .moveFailed ["Inbox", "b.md"] ::
          (applyMoves (applyMoves vColl [⟨["Inbox", "a.md"], ["T", "a.md"]⟩]).1
            [⟨["Inbox", "c.md"], ["T", "c.md"]⟩]).2 ∧
     (applyMoves vColl ([⟨["Inbox", "a.md"], ["T", "a.md"]⟩] ++
        [⟨["Inbox", "c.md"], ["T", "c.md"]⟩])).1 =
      (applyMoves vColl ([⟨["Inbox", "a.md"], ["T", "a.md"]⟩] ++
        ⟨["Inbox", "b.md"], ["T", "b.md"]⟩ :: [⟨["Inbox", "c.md"], ["T", "c.md"]⟩])).1 ∧
     (applyMoves vColl ([⟨["Inbox", "a.md"], ["T", "a.md"]⟩] ++
        [⟨["Inbox", "c.md"], ["T", "c.md"]⟩])).2 =
      (applyMoves vColl [⟨["Inbox", "a.md"], ["T", "a.md"]⟩]).2 ++
        (applyMoves (applyMoves vColl [⟨["Inbox", "a.md"], ["T", "a.md"]⟩]).1
          [⟨["Inbox", "c.md"], ["T", "c.md"]⟩]).2 ∧
     ((applyMoves vColl ([⟨["Inbox", "a.md"], ["T", "a.md"]⟩] ++
        ⟨["Inbox", "b.md"], ["T", "b.md"]⟩ :: [⟨["Inbox", "c.md"], ["T", "c.md"]⟩])).2.filter
       (fun n => ! n.isMoved)).length = 1) :=
  ⟨by decide,
   c4_single_failure_isolated vColl [⟨["Inbox", "a.md"], ["T", "a.md"]⟩]
     [⟨["Inbox", "c.md"], ["T", "c.md"]⟩] ⟨["Inbox", "b.md"], ["T", "b.md"]⟩
     (by decide) (by decide) (by decide)⟩

/-- Counterexample to C3 as stated: in `vNest` the subfolder `Inbox/sub`
precedes the file `Inbox/b.md`, so the move of `Inbox/sub/a.md` is awaited
to completion (line 108 of `src/main.ts`) before the move of `Inbox/b.md`
is even issued — the set of forced completion-before-issuance pairs is not
empty, contradicting "no move's issuance waits for another move's
completion". -/
theorem c3_counterexample_forced_wait :
    (executeMoveRule jsCompile vNest ruleNest).blocked =
      [(⟨["Inbox", "sub", "a.md"], ["T", "a.md"]⟩,
        ⟨["Inbox", "b.md"], ["T", "b.md"]⟩)] := by
  decide

theorem take_dropLast_eq {l : List String} {n : Nat} (h : n + 1 ≤ l.length) :
    l.dropLast.take n = l.take n := by
  rw [List.dropLast_eq_take, List.take_take]
  have hmin : min n (l.length - 1) = n := by omega
  rw [hmin]

theorem walkChildren_blocked_not_sibling (tgt : List String)
    (pat : String → Bool) (rec : List String → WalkOut) (q : List String) :
    ∀ es : List Entry, ∀ completed : List MoveReq,
      (∀ e ∈ es, e.path ≠ [] ∧ e.path.dropLast = q) →
      (es.map Entry.path).Nodup →
      (∀ e ∈ es, e.isDir = true →
        ∀ pair ∈ (rec e.path).blocked,
          pair.1.src.dropLast ≠ pair.2.src.dropLast) →
      (∀ e ∈ es, e.isDir = true →
        ∀ m ∈ (rec e.path).moves, strictUnder e.path m.src) →
      (∀ c ∈ completed, q.length + 2 ≤ c.src.length ∧
        ∀ e ∈ es, c.src.take (q.length + 1) ≠ e.path) →
      ∀ pair ∈ (walkChildren tgt pat rec completed es).blocked,
        pair.1.src.dropLast ≠ pair.2.src.dropLast := by
  intro es
  induction es with
  | nil =>
    intro completed _ _ _ _ _ pair hpair
    simp [walkChildren_nil] at hpair
  | cons e es ih =>
    intro completed hshape hnd hrecB hrecM hcomp pair hpair
    have hshape_e := hshape e (List.mem_cons_self e es)
    have hlen_e : e.path.length = q.length + 1 :=
      child_length hshape_e.1 hshape_e.2
    have hnd_tail : (es.map Entry.path).Nodup := by
      rw [List.map_cons, List.nodup_cons] at hnd
      exact hnd.2
    have hnotin : e.path ∉ es.map Entry.path := by
      rw [List.map_cons, List.nodup_cons] at hnd
      exact hnd.1
    have hshape2 := fun e2 he2 => hshape e2 (List.mem_cons_of_mem e he2)
    have hrecB2 := fun e2 he2 => hrecB e2 (List.mem_cons_of_mem e he2)
    have hrecM2 := fun e2 he2 => hrecM e2 (List.mem_cons_of_mem e he2)
    have hcomp2 : ∀ c ∈ completed, q.length + 2 ≤ c.src.length ∧
        ∀ e2 ∈ es, c.src.take (q.length + 1) ≠ e2.path := by
      intro c hc
      exact ⟨(hcomp c hc).1,
        fun e2 he2 => (hcomp c hc).2 e2 (List.mem_cons_of_mem e he2)⟩
    cases hd : e.isDir with
    | true =>
      rw [walkChildren_cons_dir tgt pat rec completed e es hd] at hpair
      simp only [List.mem_append] at hpair
      rcases hpair with (hpair | hpair) | hpair
      · exact hrecB e (List.mem_cons_self e es) hd pair hpair
      · obtain ⟨hc, hm⟩ := pairsOf_mem.mp hpair
        obtain ⟨hclen, hctake⟩ := hcomp pair.1 hc
        have hmu := hrecM e (List.mem_cons_self e es) hd pair.2 hm
        have hmlen : q.length + 2 ≤ pair.2.src.length := by
          have h4 := hmu.2
          omega
        have hmtake : pair.2.src.take (q.length + 1) = e.path := by
          have h1 := hmu.1
          rw [hlen_e] at h1
          exact h1
        intro hEq
        apply hctake e (List.mem_cons_self e es)
        have h1 : pair.1.src.take (q.length + 1) =
            pair.1.src.dropLast.take (q.length + 1) :=
          (take_dropLast_eq (by omega)).symm
        have h2 : pair.2.src.take (q.length + 1) =
            pair.2.src.dropLast.take (q.length + 1) :=
          (take_dropLast_eq (by omega)).symm
        rw [h1, hEq, ← h2, hmtake]
      · refine ih (completed ++ (rec e.path).moves) hshape2 hnd_tail hrecB2
          hrecM2 ?_ pair hpair
        intro c hc
        rcases List.mem_append.mp hc with hc | hc
        · exact hcomp2 c hc
        · have hcu := hrecM e (List.mem_cons_self e es) hd c hc
          constructor
          · have h4 := hcu.2
            omega
          · intro e2 he2
            have hctake : c.src.take (q.length + 1) = e.path := by
              have h1 := hcu.1
              rw [hlen_e] at h1
              exact h1
            rw [hctake]
            intro hEq
            exact hnotin (hEq ▸ List.mem_map_of_mem Entry.path he2)
    | false =>
      cases hp : pat (e.path.getLastD "") with
      | true =>
        rw [walkChildren_cons_file_match tgt pat rec completed e es hd hp] at hpair
        rcases List.mem_append.mp hpair with hpair | hpair
        · obtain ⟨hc, hm⟩ := pairsOf_mem.mp hpair
          simp only [List.mem_singleton] at hm
          obtain ⟨hclen, _⟩ := hcomp pair.1 hc
          intro hEq
          rw [hm] at hEq
          have hlen1 := congrArg List.length hEq
          simp only [List.length_dropLast] at hlen1
          omega
        · exact ih completed hshape2 hnd_tail hrecB2 hrecM2 hcomp2 pair hpair
      | false =>
        rw [walkChildren_cons_file_nomatch tgt pat rec completed e es hd hp] at hpair
        exact ih completed hshape2 hnd_tail hrecB2 hrecM2 hcomp2 pair hpair

theorem walk_blocked_not_sibling (v : List Entry) (pat : String → Bool)
    (tgt : List String) (hnd : (v.map Entry.path).Nodup) :
    ∀ fuel : Nat, ∀ q, ∀ pair ∈ (walk v pat tgt fuel q).blocked,
      pair.1.src.dropLast ≠ pair.2.src.dropLast := by
  intro fuel
  induction fuel with
  | zero => intro q pair hpair; rw [walk_zero] at hpair; cases hpair
  | succ fuel ih =>
    intro q pair hpair
    rw [walk_succ] at hpair
    refine walkChildren_blocked_not_sibling tgt pat _ q (childrenOf v q) []
      ?_ ?_ ?_ ?_ ?_ pair hpair
    · intro e he
      exact (childrenOf_mem.mp he).2
    · exact hnd.sublist ((List.filter_sublist v).map Entry.path)
    · intro e _ _
      exact ih e.path
    · intro e _ _ m hm
      exact walk_moves_src_under v pat tgt fuel e.path m hm
    · intro c hc
      cases hc

/-- Claim C3, amended: not all moves of a rule invocation are issued
concurrently — processing of a subfolder child is awaited in full before
later siblings (line 108 of `src/main.ts`), so a move issued after an
earlier sibling subfolder waits for that subtree's moves to complete (see
the counterexample).  What does hold: any two moves whose files are direct
children of the same folder are issued without either waiting for the
other's completion (neither ordered pair occurs in the forced
completion-before-issuance relation), every forced wait's blocking move
lies at least two levels below the source folder (inside a proper
subfolder), and the invocation completes only after an outcome has been
resolved and reported for every issued move. -/
theorem c3_same_folder_moves_not_waiting (v1 : List Entry)
    (pat : String → Bool) (rule : MoveRule)
    (hnd : (v1.map Entry.path).Nodup) (m1 m2 : MoveReq)
    (hsib : m1.src.dropLast = m2.src.dropLast) :
    (m1, m2) ∉ (ruleWalk v1 pat rule).blocked ∧
    (m2, m1) ∉ (ruleWalk v1 pat rule).blocked ∧
    (∀ pair ∈ (ruleWalk v1 pat rule).blocked,
       rule.sourcePath.length + 2 ≤ pair.1.src.length) ∧
    (applyMoves v1 (ruleWalk v1 pat rule).moves).2.length =
      (ruleWalk v1 pat rule).moves.length := by
  refine ⟨?_, ?_, ?_, applyMoves_length _ _⟩
  · intro hmem
    exact walk_blocked_not_sibling v1 pat rule.targetPath hnd (maxLen v1 + 1)
      rule.sourcePath (m1, m2) hmem hsib
  · intro hmem
    exact walk_blocked_not_sibling v1 pat rule.targetPath hnd (maxLen v1 + 1)
      rule.sourcePath (m2, m1) hmem hsib.symm
  · intro pair hpair
    exact walk_blocked_first_deep v1 pat rule.targetPath (maxLen v1 + 1)
      rule.sourcePath pair hpair

/-- Witness for the amended C3: the moves of the sibling files
`Inbox/a.md` and `Inbox/b.md` of `vColl` wait on each other in neither
order. -/
theorem c3_witness_same_folder :
    ((⟨["Inbox", "a.md"], ["T", "a.md"]⟩ : MoveReq).src.dropLast =
       (⟨["Inbox", "b.md"], ["T", "b.md"]⟩ : MoveReq).src.dropLast) ∧
    ((⟨["Inbox", "a.md"], ["T", "a.md"]⟩,
      (⟨["Inbox", "b.md"], ["T", "b.md"]⟩ : MoveReq)) ∉
        (ruleWalk vColl patMd ruleColl).blocked ∧
     (⟨["Inbox", "b.md"], ["T", "b.md"]⟩,
      (⟨["Inbox", "a.md"], ["T", "a.md"]⟩ : MoveReq)) ∉
        (ruleWalk vColl patMd ruleColl).blocked ∧
     (∀ pair ∈ (ruleWalk vColl patMd ruleColl).blocked,
        ruleColl.sourcePath.length + 2 ≤ pair.1.src.length) ∧
     (applyMoves vColl (ruleWalk vColl patMd ruleColl).moves).2.length =
       (ruleWalk vColl patMd ruleColl).moves.length) :=
  ⟨by decide,
   c3_same_folder_moves_not_waiting vColl patMd ruleColl (by decide)
     ⟨["Inbox", "a.md"], ["T", "a.md"]⟩ ⟨["Inbox", "b.md"], ["T", "b.md"]⟩
     (by decide)⟩

/-- Claim C6: the walk is exhaustive and non-pruning — the file paths
tested against the pattern are exactly the paths of the file entries
strictly below the source folder, at any depth, each tested exactly once
(the tested list has no duplicates); folder entries are never tested. -/
theorem c6_walk_exhaustive_files_once (v1 : List Entry) (pat : String → Bool)
    (rule : MoveRule) (hwf : WF v1) :
    (∀ q, q ∈ (ruleWalk v1 pat rule).tested ↔
       ∃ e ∈ v1, e.path = q ∧ e.isDir = false ∧ strictUnder rule.sourcePath q) ∧
    (ruleWalk v1 pat rule).tested.Nodup := by
  constructor
  · intro q
    refine walk_tested_mem hwf pat rule.targetPath (maxLen v1 + 1)
      rule.sourcePath ?_ q
    intro e he _
    have := le_maxLen he
    omega
  · exact walk_tested_nodup v1 pat rule.targetPath hwf.1 (maxLen v1 + 1)
      rule.sourcePath

/-- Witness for C6 over the two-subfolder vault `vDup`. -/
theorem c6_witness :
    WF vDup ∧
    ((∀ q, q ∈ (ruleWalk vDup patAll ruleDup).tested ↔
        ∃ e ∈ vDup, e.path = q ∧ e.isDir = false ∧
          strictUnder ruleDup.sourcePath q) ∧
     (ruleWalk vDup patAll ruleDup).tested.Nodup) :=
  ⟨by decide, c6_walk_exhaustive_files_once vDup patAll ruleDup (by decide)⟩

/-- Claim C9, amended: `executeMoveRule` propagates no error to its caller
(the explicit error-channel rendering of the source's try/catch always
returns a state), and — because every rename error is caught inside
`moveFile` and reported per file — nothing escapes the walk/move phase, so
the invalid-pattern notice is emitted exactly when pattern compilation
fails. -/
theorem c9_no_error_escapes (compile : String → Option (String → Bool))
    (v v1 : List Entry) (rule : MoveRule) (s : Entry)
    (hen : rule.enabled = true)
    (hs : resolve v rule.sourcePath = some s) (hd : s.isDir = true)
    (hens : ensureTarget v rule.targetPath = some v1) :
    executeMoveRuleE compile v rule = .ok (executeMoveRule compile v rule) ∧
    (Notice.invalidPattern rule.filePattern ∈
       (executeMoveRule compile v rule).notices ↔
     compile rule.filePattern = none) := by
  have hexe := executeMoveRule_valid compile v v1 rule s hen hs hd hens
  have hexeE : executeMoveRuleE compile v rule = matchAndMoveE compile v1 rule := by
    simp [executeMoveRuleE, hen, hs, hd, hens]
  rw [hexe, hexeE]
  cases hcomp : compile rule.filePattern with
  | none =>
    rw [matchAndMove_none compile v1 rule hcomp]
    constructor
    · simp [matchAndMoveE, compileE, hcomp]
    · simp
  | some pat =>
    rw [matchAndMove_some compile v1 rule pat hcomp]
    constructor
    · simp [matchAndMoveE, compileE, hcomp]
    · simp only
      constructor
      · intro hmem
        have hshape := applyMoves_notices_shape v1 (ruleWalk v1 pat rule).moves
          (Notice.invalidPattern rule.filePattern) hmem
        rcases hshape with ⟨a, b, hab⟩ | ⟨a, ha⟩
        · cases hab
        · cases ha
      · intro hnone
        cases hnone

/-- Counterexample to C9 as stated: over `vColl` the pattern compiles and
a rename fails in the move phase (a name collision at the target); that
error is caught and reported per file, and the "Invalid regular
expression" notice never appears — the notice tracks compilation failure
exactly, contrary to the claim's final clause. -/
theorem c9_counterexample_move_error_reported_per_file :
    (jsCompile ruleColl.filePattern).isSome = true ∧
    (executeMoveRule jsCompile vColl ruleColl).notices =
      [.movedFile ["Inbox", "a.md"] ["T", "a.md"],
       .moveFailed ["Inbox", "b.md"],
       .movedFile ["Inbox", "c.md"] ["T", "c.md"]] := by
  decide

/-- Witness for the amended C9 over the collision vault. -/
theorem c9_witness :
    resolve vColl ruleColl.sourcePath = some ⟨["Inbox"], true⟩ ∧
    (executeMoveRuleE jsCompile vColl ruleColl =
       .ok (executeMoveRule jsCompile vColl ruleColl) ∧
     (Notice.invalidPattern ruleColl.filePattern ∈
        (executeMoveRule jsCompile vColl ruleColl).notices ↔
      jsCompile ruleColl.filePattern = none)) :=
  ⟨by decide,
   c9_no_error_escapes jsCompile vColl vColl ruleColl ⟨["Inbox"], true⟩
     rfl (by decide) rfl (by decide)⟩

/-- Claim C10: when the target path resolves to an existing entry of any
kind — including a plain file — the ensure step leaves the vault alone (no
folder creation is attempted, no target-creation error is possible), and
the invocation proceeds to the matching and moving phases, issuing every
rename to `targetPath ++ [baseName]`; folder entries of the vault are
unchanged by the whole invocation. -/
theorem c10_existing_target_any_kind_proceeds
    (compile : String → Option (String → Bool)) (v : List Entry)
    (rule : MoveRule) (s t : Entry) (hwf : WF v)
    (hen : rule.enabled = true)
    (hs : resolve v rule.sourcePath = some s) (hd : s.isDir = true)
    (ht : resolve v rule.targetPath = some t) :
    executeMoveRule compile v rule = matchAndMove compile v rule ∧
    (∀ q, Notice.targetCreateFailed q ∉ (executeMoveRule compile v rule).notices) ∧
    (∀ m ∈ (executeMoveRule compile v rule).issued,
       m.dst = rule.targetPath ++ [m.src.getLastD ""]) ∧
    (executeMoveRule compile v rule).vault.filter (fun e => e.isDir) =
      v.filter (fun e => e.isDir) := by
  have hens : ensureTarget v rule.targetPath = some v := by
    simp [ensureTarget, ht]
  have hexe := executeMoveRule_valid compile v v rule s hen hs hd hens
  refine ⟨hexe, ?_, ?_, ?_⟩
  · intro q hmem
    rw [hexe] at hmem
    cases hcomp : compile rule.filePattern with
    | none =>
      rw [matchAndMove_none compile v rule hcomp] at hmem
      simp at hmem
    | some pat =>
      rw [matchAndMove_some compile v rule pat hcomp] at hmem
      have hshape := applyMoves_notices_shape v (ruleWalk v pat rule).moves
        (Notice.targetCreateFailed q) hmem
      rcases hshape with ⟨a, b, hab⟩ | ⟨a, ha⟩
      · cases hab
      · cases ha
  · intro m hm
    rw [hexe] at hm
    cases hcomp : compile rule.filePattern with
    | none =>
      rw [matchAndMove_none compile v rule hcomp] at hm
      cases hm
    | some pat =>
      rw [matchAndMove_some compile v rule pat hcomp] at hm
      exact ((walk_moves_iff_tested v pat rule.targetPath (maxLen v + 1)
        rule.sourcePath m).mp hm).2.2
  · rw [hexe]
    cases hcomp : compile rule.filePattern with
    | none =>
      rw [matchAndMove_none compile v rule hcomp]
    | some pat =>
      rw [matchAndMove_some compile v rule pat hcomp]
      refine applyMoves_dirs_preserved (ruleWalk v pat rule).moves v hwf.1 ?_
      intro m hm e he hep
      have hiff := (walk_moves_iff_tested v pat rule.targetPath (maxLen v + 1)
        rule.sourcePath m).mp hm
      obtain ⟨_, e3, he3, he3p, he3f⟩ :=
        walk_tested_under v pat rule.targetPath (maxLen v + 1)
          rule.sourcePath m.src hiff.1
      have : e = e3 := entry_unique hwf.1 he he3 (by rw [hep, he3p])
      rw [this]
      exact he3f

/-- Witness for C10: the target path `T` of `vTgtFile` is occupied by a
plain file, and the run still proceeds to issue the rename beneath it. -/
theorem c10_witness :
    resolve vTgtFile ruleTgtFile.targetPath = some ⟨["T"], false⟩ ∧
    (executeMoveRule jsCompile vTgtFile ruleTgtFile =
       matchAndMove jsCompile vTgtFile ruleTgtFile ∧
     (∀ q, Notice.targetCreateFailed q ∉
        (executeMoveRule jsCompile vTgtFile ruleTgtFile).notices) ∧
     (∀ m ∈ (executeMoveRule jsCompile vTgtFile ruleTgtFile).issued,
        m.dst = ruleTgtFile.targetPath ++ [m.src.getLastD ""]) ∧
     (executeMoveRule jsCompile vTgtFile ruleTgtFile).vault.filter
         (fun e => e.isDir) =
       vTgtFile.filter (fun e => e.isDir)) :=
  ⟨by decide,
   c10_existing_target_any_kind_proceeds jsCompile vTgtFile ruleTgtFile
     ⟨["Inbox"], true⟩ ⟨["T"], false⟩ (by decide) rfl (by decide) rfl (by decide)⟩

theorem ruleWalk_moves_facts (v1 : List Entry) (pat : String → Bool)
    (rule : MoveRule) (m : MoveReq) (hm : m ∈ (ruleWalk v1 pat rule).moves) :
    (⟨m.src, false⟩ : Entry) ∈ v1 ∧ strictUnder rule.sourcePath m.src ∧
    pat (m.src.getLastD "") = true ∧
    m.dst = rule.targetPath ++ [m.src.getLastD ""] := by
  have hiff := (walk_moves_iff_tested v1 pat rule.targetPath (maxLen v1 + 1)
    rule.sourcePath m).mp hm
  obtain ⟨hu, e3, he3, he3p, he3f⟩ := walk_tested_under v1 pat rule.targetPath
    (maxLen v1 + 1) rule.sourcePath m.src hiff.1
  have hentry : (⟨m.src, false⟩ : Entry) = e3 := by
    cases e3
    simp only at he3p he3f
    rw [he3p, he3f]
  exact ⟨hentry ▸ he3, hu, hiff.2.1, hiff.2.2⟩

theorem ruleWalk_matched_in_moves (v1 : List Entry) (pat : String → Bool)
    (rule : MoveRule) (hwf : WF v1) (e : Entry) (he : e ∈ v1)
    (hef : e.isDir = false) (hu : strictUnder rule.sourcePath e.path)
    (hp : pat (e.path.getLastD "") = true) :
    (⟨e.path, rule.targetPath ++ [e.path.getLastD ""]⟩ : MoveReq) ∈
      (ruleWalk v1 pat rule).moves := by
  refine (walk_moves_iff_tested v1 pat rule.targetPath (maxLen v1 + 1)
    rule.sourcePath _).mpr ⟨?_, hp, rfl⟩
  refine (walk_tested_mem hwf pat rule.targetPath (maxLen v1 + 1)
    rule.sourcePath ?_ e.path).mpr ⟨e, he, rfl, hef, hu⟩
  intro e2 he2 _
  have := le_maxLen he2
  omega

theorem ruleWalk_srcs_nodup (v1 : List Entry) (pat : String → Bool)
    (rule : MoveRule) (hnd : (v1.map Entry.path).Nodup) :
    ((ruleWalk v1 pat rule).moves.map MoveReq.src).Nodup :=
  (walk_tested_nodup v1 pat rule.targetPath hnd (maxLen v1 + 1)
    rule.sourcePath).sublist
    (walk_moves_src_sublist v1 pat rule.targetPath (maxLen v1 + 1) rule.sourcePath)

theorem ruleWalk_dsts_nodup (v1 : List Entry) (pat : String → Bool)
    (rule : MoveRule)
    (hnames : ((ruleWalk v1 pat rule).moves.map (fun m => m.src.getLastD "")).Nodup) :
    ((ruleWalk v1 pat rule).moves.map MoveReq.dst).Nodup := by
  have hmapdst : (ruleWalk v1 pat rule).moves.map MoveReq.dst =
      ((ruleWalk v1 pat rule).moves.map (fun m => m.src.getLastD "")).map
        (fun n => rule.targetPath ++ [n]) := by
    rw [List.map_map]
    refine List.map_congr_left ?_
    intro m hm
    exact (ruleWalk_moves_facts v1 pat rule m hm).2.2.2
  rw [hmapdst]
  refine hnames.map ?_
  intro a b h
  have h2 := congrArg (List.drop rule.targetPath.length) h
  simpa [List.drop_left] using h2

theorem run_all_ok (compile : String → Option (String → Bool))
    (v v1 : List Entry) (rule : MoveRule) (s : Entry) (pat : String → Bool)
    (hen : rule.enabled = true)
    (hs : resolve v rule.sourcePath = some s) (hd : s.isDir = true)
    (hens : ensureTarget v rule.targetPath = some v1)
    (hwf : WF v1)
    (htgt : (⟨rule.targetPath, true⟩ : Entry) ∈ v1)
    (hcomp : compile rule.filePattern = some pat)
    (hnames : ((ruleWalk v1 pat rule).moves.map (fun m => m.src.getLastD "")).Nodup)
    (hfree : ∀ m ∈ (ruleWalk v1 pat rule).moves, ∀ e ∈ v1, e.path ≠ m.dst) :
    executeMoveRule compile v rule =
      ⟨v1.filter (fun e =>
          decide (e.path ∉ (ruleWalk v1 pat rule).moves.map MoveReq.src)) ++
         (ruleWalk v1 pat rule).moves.map (fun m => ⟨m.dst, false⟩),
       (ruleWalk v1 pat rule).moves.map (fun m => Notice.movedFile m.src m.dst),
       (ruleWalk v1 pat rule).moves, (ruleWalk v1 pat rule).blocked,
       (ruleWalk v1 pat rule).tested⟩ := by
  have happly := applyMoves_all_ok rule.targetPath (ruleWalk v1 pat rule).moves v1
    hwf.1
    (ruleWalk_srcs_nodup v1 pat rule hwf.1)
    (ruleWalk_dsts_nodup v1 pat rule hnames)
    (fun m hm => (ruleWalk_moves_facts v1 pat rule m hm).1)
    hfree
    (fun m hm => by
      rw [(ruleWalk_moves_facts v1 pat rule m hm).2.2.2]
      exact List.dropLast_concat ..)
    htgt
  rw [executeMoveRule_valid compile v v1 rule s hen hs hd hens,
    matchAndMove_some compile v1 rule pat hcomp, happly]

/-- Claim C1, amended: under the rule's preconditions (enabled, source
resolves to a folder, target ensured and a folder, pattern compiled) and
provided that no two matched files share a base name and that no matched
file's destination path is already occupied in the walked vault, every
file below the source folder whose base name matches the pattern ends up
as a direct child of the target path under its unchanged base name and is
gone from its original path, every entry that is a folder, does not match,
or lies outside the source subtree stays in place, and every move is
reported as a success.  The unconditional claim is false: two matched
files with equal base names collide at the target and one of them stays
behind (see the counterexample). -/
theorem c1_matched_flattened_to_target
    (compile : String → Option (String → Bool))
    (v v1 : List Entry) (rule : MoveRule) (s : Entry) (pat : String → Bool)
    (hen : rule.enabled = true)
    (hs : resolve v rule.sourcePath = some s) (hd : s.isDir = true)
    (hens : ensureTarget v rule.targetPath = some v1)
    (hwf : WF v1)
    (htgt : (⟨rule.targetPath, true⟩ : Entry) ∈ v1)
    (hcomp : compile rule.filePattern = some pat)
    (hnames : ((ruleWalk v1 pat rule).moves.map (fun m => m.src.getLastD "")).Nodup)
    (hfree : ∀ m ∈ (ruleWalk v1 pat rule).moves, ∀ e ∈ v1, e.path ≠ m.dst) :
    (∀ e ∈ v1, e.isDir = false → strictUnder rule.sourcePath e.path →
       pat (e.path.getLastD "") = true →
       ((⟨rule.targetPath ++ [e.path.getLastD ""], false⟩ : Entry) ∈
          (executeMoveRule compile v rule).vault ∧
        ∀ e2 ∈ (executeMoveRule compile v rule).vault, e2.path ≠ e.path)) ∧
    (∀ e ∈ v1, (e.isDir = true ∨ pat (e.path.getLastD "") = false ∨
       ¬ strictUnder rule.sourcePath e.path) →
       e ∈ (executeMoveRule compile v rule).vault) ∧
    (executeMoveRule compile v rule).notices =
      (ruleWalk v1 pat rule).moves.map (fun m => Notice.movedFile m.src m.dst) := by
  have hrun := run_all_ok compile v v1 rule s pat hen hs hd hens hwf htgt hcomp
    hnames hfree
  rw [hrun]
  simp only
  refine ⟨?_, ?_, by trivial⟩
  · intro e he hef hu hp
    have hm := ruleWalk_matched_in_moves v1 pat rule hwf e he hef hu hp
    constructor
    · refine List.mem_append_right _ ?_
      exact List.mem_map_of_mem (fun m => (⟨m.dst, false⟩ : Entry)) hm
    · intro e2 he2
      rcases List.mem_append.mp he2 with he2 | he2
      · rw [List.mem_filter] at he2
        have hnotin := of_decide_eq_true he2.2
        intro hEq
        apply hnotin
        rw [hEq]
        exact List.mem_map_of_mem MoveReq.src hm
      · obtain ⟨m2, hm2, rfl⟩ := List.mem_map.mp he2
        simp only
        intro hEq
        exact hfree m2 hm2 e he hEq.symm
  · intro e he hcase
    refine List.mem_append_left _ ?_
    rw [List.mem_filter]
    refine ⟨he, decide_eq_true ?_⟩
    intro hmem
    obtain ⟨m2, hm2, hm2src⟩ := List.mem_map.mp hmem
    obtain ⟨hm2mem, hm2u, hm2p, _⟩ := ruleWalk_moves_facts v1 pat rule m2 hm2
    have hentry : e = (⟨m2.src, false⟩ : Entry) :=
      entry_unique hwf.1 he hm2mem hm2src.symm
    rcases hcase with hdir | hpat | hnu
    · rw [hentry] at hdir
      cases hdir
    · rw [hentry] at hpat
      rw [hm2p] at hpat
      cases hpat
    · apply hnu
      rw [hentry]
      exact hm2u

/-- Counterexample to C1 as stated: in `vDup` both `Inbox/A/x.md` and
`Inbox/B/x.md` match, the pattern compiles, source and target folders
exist — yet after the run `Inbox/B/x.md` is still at its original path
(its rename collided with the already-moved `T/x.md`), so not every
matching file ends up as a direct child of the target. -/
theorem c1_counterexample_duplicate_names :
    resolve vDup ruleDup.sourcePath = some ⟨["Inbox"], true⟩ ∧
    (jsCompile ruleDup.filePattern).isSome = true ∧
    resolve vDup ruleDup.targetPath = some ⟨["T"], true⟩ ∧
    ((jsCompile "x").getD (fun _ => false)) "x.md" = true ∧
    (⟨["Inbox", "B", "x.md"], false⟩ : Entry) ∈
      (executeMoveRule jsCompile vDup ruleDup).vault := by
  decide

/-- Witness for the amended C1 over `vPlain`. -/
theorem c1_witness :
    WF vPlain ∧
    ((∀ e ∈ vPlain, e.isDir = false → strictUnder rulePlain.sourcePath e.path →
        patMd (e.path.getLastD "") = true →
        ((⟨rulePlain.targetPath ++ [e.path.getLastD ""], false⟩ : Entry) ∈
           (executeMoveRule jsCompile vPlain rulePlain).vault ∧
         ∀ e2 ∈ (executeMoveRule jsCompile vPlain rulePlain).vault,
           e2.path ≠ e.path)) ∧
     (∀ e ∈ vPlain, (e.isDir = true ∨ patMd (e.path.getLastD "") = false ∨
        ¬ strictUnder rulePlain.sourcePath e.path) →
        e ∈ (executeMoveRule jsCompile vPlain rulePlain).vault) ∧
     (executeMoveRule jsCompile vPlain rulePlain).notices =
       (ruleWalk vPlain patMd rulePlain).moves.map
         (fun m => Notice.movedFile m.src m.dst)) :=
  ⟨by decide,
   c1_matched_flattened_to_target jsCompile vPlain vPlain rulePlain
     ⟨["Inbox"], true⟩ patMd rfl (by decide) rfl (by decide) (by decide)
     (by decide) rfl (by decide) (by decide)⟩

theorem ensureTarget_mem {v v1 : List Entry} {p : List String}
    (h : ensureTarget v p = some v1) : ∀ e ∈ v, e ∈ v1 := by
  cases hres : resolve v p with
  | some e0 =>
    simp only [ensureTarget, hres] at h
    injection h with h2
    rw [← h2]
    intro e he
    exact he
  | none =>
    simp only [ensureTarget, hres] at h
    unfold createFolder at h
    split_ifs at h with h1 h2 h3
    injection h with h4
    intro e he
    rw [← h4]
    exact List.mem_append_left _ he

/-- Claim C7, amended: when the first invocation succeeds in moving every
matched file (which the no-shared-base-name and free-destination
hypotheses guarantee) and the target path does not lie inside the source
subtree, a second invocation of the same rule over the resulting vault
computes an empty match set: it issues no move, changes nothing, and
reports nothing.  Without the separation hypothesis the claim is false —
the spec's own example places the target inside the source, and the
second invocation re-matches the files already moved (see the
counterexample). -/
theorem c7_second_run_empty_matches
    (compile : String → Option (String → Bool))
    (v v1 : List Entry) (rule : MoveRule) (s : Entry) (pat : String → Bool)
    (hen : rule.enabled = true)
    (hs : resolve v rule.sourcePath = some s) (hd : s.isDir = true)
    (hens : ensureTarget v rule.targetPath = some v1)
    (hwf : WF v1)
    (htgt : (⟨rule.targetPath, true⟩ : Entry) ∈ v1)
    (hcomp : compile rule.filePattern = some pat)
    (hnames : ((ruleWalk v1 pat rule).moves.map (fun m => m.src.getLastD "")).Nodup)
    (hfree : ∀ m ∈ (ruleWalk v1 pat rule).moves, ∀ e ∈ v1, e.path ≠ m.dst)
    (hsep : ¬ rule.targetPath.take rule.sourcePath.length = rule.sourcePath) :
    (executeMoveRule compile v rule).notices =
      (ruleWalk v1 pat rule).moves.map (fun m => Notice.movedFile m.src m.dst) ∧
    (ruleWalk (executeMoveRule compile v rule).vault pat rule).moves = [] ∧
    executeMoveRule compile (executeMoveRule compile v rule).vault rule =
      ⟨(executeMoveRule compile v rule).vault, [], [], [],
       (ruleWalk (executeMoveRule compile v rule).vault pat rule).tested⟩ := by
  have hrun := run_all_ok compile v v1 rule s pat hen hs hd hens hwf htgt hcomp
    hnames hfree
  have hvault : (executeMoveRule compile v rule).vault =
      v1.filter (fun e =>
        decide (e.path ∉ (ruleWalk v1 pat rule).moves.map MoveReq.src)) ++
      (ruleWalk v1 pat rule).moves.map (fun m => ⟨m.dst, false⟩) := by
    rw [hrun]
  have hnotices : (executeMoveRule compile v rule).notices =
      (ruleWalk v1 pat rule).moves.map (fun m => Notice.movedFile m.src m.dst) := by
    rw [hrun]
  set v2 : List Entry := v1.filter (fun e =>
      decide (e.path ∉ (ruleWalk v1 pat rule).moves.map MoveReq.src)) ++
      (ruleWalk v1 pat rule).moves.map (fun m => ⟨m.dst, false⟩) with hv2def
  have hv2cases : ∀ e ∈ v2,
      (e ∈ v1 ∧ e.path ∉ (ruleWalk v1 pat rule).moves.map MoveReq.src) ∨
      ∃ m ∈ (ruleWalk v1 pat rule).moves, e = ⟨m.dst, false⟩ := by
    intro e he
    rw [hv2def, List.mem_append, List.mem_filter] at he
    rcases he with ⟨he1, he2⟩ | he
    · exact Or.inl ⟨he1, of_decide_eq_true he2⟩
    · obtain ⟨m, hm, hm2⟩ := List.mem_map.mp he
      exact Or.inr ⟨m, hm, hm2.symm⟩
  have hv2intro : ∀ e ∈ v1,
      e.path ∉ (ruleWalk v1 pat rule).moves.map MoveReq.src → e ∈ v2 := by
    intro e he hnot
    rw [hv2def, List.mem_append, List.mem_filter]
    exact Or.inl ⟨he, decide_eq_true hnot⟩
  have hdir_not_src : ∀ d ∈ v1, d.isDir = true →
      d.path ∉ (ruleWalk v1 pat rule).moves.map MoveReq.src := by
    intro d hd1 hd2 hmem
    obtain ⟨m, hm, hmsrc⟩ := List.mem_map.mp hmem
    have hfile := (ruleWalk_moves_facts v1 pat rule m hm).1
    have := entry_unique hwf.1 hd1 hfile hmsrc.symm
    rw [this] at hd2
    cases hd2
  have hnd2 : (v2.map Entry.path).Nodup := by
    rw [hv2def, List.map_append, List.nodup_append, List.map_map]
    refine ⟨hwf.1.sublist ((List.filter_sublist v1).map Entry.path), ?_, ?_⟩
    · have hco : (Entry.path ∘ fun m => (⟨m.dst, false⟩ : Entry)) = MoveReq.dst := rfl
      rw [hco]
      exact ruleWalk_dsts_nodup v1 pat rule hnames
    · intro x hx
      obtain ⟨e, he, hep⟩ := List.mem_map.mp hx
      have he1 := ((List.mem_filter.mp he).1)
      intro hx2
      obtain ⟨m, hm, hmd⟩ := List.mem_map.mp hx2
      have : (Entry.path ∘ fun m => (⟨m.dst, false⟩ : Entry)) m = m.dst := rfl
      rw [this] at hmd
      exact hfree m hm e he1 (by rw [hep, hmd])
  have hs_mem : s ∈ v1 :=
    ensureTarget_mem hens s (resolve_eq_some hs).1
  have hs_path : s.path = rule.sourcePath := (resolve_eq_some hs).2
  have hs2 : s ∈ v2 := by
    refine hv2intro s hs_mem ?_
    rw [hs_path]
    have := hdir_not_src s hs_mem hd
    rw [hs_path] at this
    exact this
  have hres2 : resolve v2 rule.sourcePath = some s := by
    have := resolve_of_mem hnd2 hs2
    rw [hs_path] at this
    exact this
  have htgt2 : (⟨rule.targetPath, true⟩ : Entry) ∈ v2 :=
    hv2intro _ htgt (hdir_not_src _ htgt rfl)
  have hrt2 : resolve v2 rule.targetPath = some ⟨rule.targetPath, true⟩ :=
    resolve_of_mem hnd2 htgt2
  have hens2 : ensureTarget v2 rule.targetPath = some v2 := by
    simp [ensureTarget, hrt2]
  have hwf2 : WF v2 := by
    refine ⟨hnd2, ?_⟩
    intro e he
    rcases hv2cases e he with ⟨he1, _⟩ | ⟨m, hm, rfl⟩
    · obtain ⟨hne, hpar⟩ := hwf.2 e he1
      refine ⟨hne, ?_⟩
      intro hdl
      obtain ⟨d, hd1, hd2, hd3⟩ := hpar hdl
      exact ⟨d, hv2intro d hd1 (hdir_not_src d hd1 hd3), hd2, hd3⟩
    · have hdst := (ruleWalk_moves_facts v1 pat rule m hm).2.2.2
      constructor
      · simp only
        rw [hdst]
        simp
      · intro hdl
        refine ⟨⟨rule.targetPath, true⟩, htgt2, ?_, rfl⟩
        simp only
        rw [hdst]
        exact (List.dropLast_concat ..).symm ▸ rfl
  have hmoves2 : (ruleWalk v2 pat rule).moves = [] := by
    refine List.eq_nil_iff_forall_not_mem.mpr ?_
    intro m hm
    obtain ⟨hsm, hu, hp, _⟩ := ruleWalk_moves_facts v2 pat rule m hm
    rcases hv2cases _ hsm with ⟨hin1, hnotsrc⟩ | ⟨m2, hm2, heq⟩
    · apply hnotsrc
      have hmm := ruleWalk_matched_in_moves v1 pat rule hwf ⟨m.src, false⟩ hin1
        rfl hu hp
      have hmm2 := List.mem_map_of_mem MoveReq.src hmm
      exact hmm2
    · have hdst2 := (ruleWalk_moves_facts v1 pat rule m2 hm2).2.2.2
      have hsrceq : m.src = m2.dst := congrArg Entry.path heq
      rw [hsrceq, hdst2] at hu
      obtain ⟨hu1, hu2⟩ := hu
      have hlen : rule.sourcePath.length ≤ rule.targetPath.length := by
        simp at hu2
        omega
      apply hsep
      rw [List.take_append_of_le_length hlen] at hu1
      exact hu1
  refine ⟨hnotices, ?_, ?_⟩
  · rw [hvault]
    exact hmoves2
  · rw [hvault]
    rw [executeMoveRule_valid compile v2 v2 rule s hen hres2 hd hens2,
      matchAndMove_some compile v2 rule pat hcomp]
    have hblocked2 : (ruleWalk v2 pat rule).blocked = [] := by
      refine List.eq_nil_iff_forall_not_mem.mpr ?_
      intro pair hpair
      have hsnd : pair.2 ∈ (ruleWalk v2 pat rule).moves :=
        walk_blocked_snd v2 pat rule.targetPath (maxLen v2 + 1)
          rule.sourcePath pair hpair
      rw [hmoves2] at hsnd
      cases hsnd
    rw [hmoves2, hblocked2]
    rfl

/-- Counterexample to C7 as stated: with the spec's own example rule, the
target `Inbox/PDFs` lies inside the source `Inbox`; the first invocation
succeeds in moving every matched file, yet the second invocation's match
set is not empty — it re-matches `Inbox/PDFs/a.pdf` and issues a (failing)
move for it. -/
theorem c7_counterexample_target_inside_source :
    (executeMoveRule jsCompile vPdf rulePdf).notices =
      [.movedFile ["Inbox", "a.pdf"] ["Inbox", "PDFs", "a.pdf"]] ∧
    (executeMoveRule jsCompile
       (executeMoveRule jsCompile vPdf rulePdf).vault rulePdf).issued ≠ [] := by
  decide

/-- Witness for the amended C7 over `vPlain` (target outside source). -/
theorem c7_witness :
    (¬ rulePlain.targetPath.take rulePlain.sourcePath.length =
       rulePlain.sourcePath) ∧
    ((executeMoveRule jsCompile vPlain rulePlain).notices =
       (ruleWalk vPlain patMd rulePlain).moves.map
         (fun m => Notice.movedFile m.src m.dst) ∧
     (ruleWalk (executeMoveRule jsCompile vPlain rulePlain).vault patMd
        rulePlain).moves = [] ∧
     executeMoveRule jsCompile
         (executeMoveRule jsCompile vPlain rulePlain).vault rulePlain =
       ⟨(executeMoveRule jsCompile vPlain rulePlain).vault, [], [], [],
        (ruleWalk (executeMoveRule jsCompile vPlain rulePlain).vault patMd
          rulePlain).tested⟩) :=
  ⟨by decide,
   c7_second_run_empty_matches jsCompile vPlain vPlain rulePlain
     ⟨["Inbox"], true⟩ patMd rfl (by decide) rfl (by decide) (by decide)
     (by decide) rfl (by decide) (by decide) (by decide)⟩

end FileMover
